import Mathlib

/-!
Verification of the GOST2-128 file-encryption toolkit (Rust sources
`gost2-128.rs`, `gost2file.rs`, `gost2gcm.rs`) against its specification.

The development shallowly embeds the program: machine integers (`u8`, `u32`,
`u64`) become `Nat` with explicit `% 2^w` or masks exactly where the Rust code
wraps or truncates; byte buffers become `List Nat`; the streaming file codecs
become pure functions from the input byte string to the output byte string.
Loops are turned into structurally recursive functions whose per-iteration
bodies are literal transcriptions of the loop bodies.
-/

/- ===================== GOST2-128 core ===================== -/

/-- S-box `K1` from the source (identical in all three files). -/
def K1 : List Nat := [0x4,0xA,0x9,0x2,0xD,0x8,0x0,0xE,0x6,0xB,0x1,0xC,0x7,0xF,0x5,0x3]
def K2 : List Nat := [0xE,0xB,0x4,0xC,0x6,0xD,0xF,0xA,0x2,0x3,0x8,0x1,0x0,0x7,0x5,0x9]
def K3 : List Nat := [0x5,0x8,0x1,0xD,0xA,0x3,0x4,0x2,0xE,0xF,0xC,0x7,0x6,0x0,0x9,0xB]
def K4 : List Nat := [0x7,0xD,0xA,0x1,0x0,0x8,0x9,0xF,0xE,0x4,0x6,0xC,0xB,0x2,0x5,0x3]
def K5 : List Nat := [0x6,0xC,0x7,0x1,0x5,0xF,0xD,0x8,0x4,0xA,0x9,0xE,0x0,0x3,0xB,0x2]
def K6 : List Nat := [0x4,0xB,0xA,0x0,0x7,0x2,0x1,0xD,0x3,0x6,0x8,0x5,0x9,0xC,0xF,0xE]
def K7 : List Nat := [0xD,0xB,0x4,0x1,0x3,0xF,0x5,0x9,0x0,0xA,0xE,0x7,0x6,0x8,0x2,0xC]
def K8 : List Nat := [0x1,0xF,0xD,0x0,0x5,0x7,0xA,0x4,0x9,0x2,0x3,0xE,0x6,0xB,0x8,0xC]
def K9 : List Nat := [0xC,0x4,0x6,0x2,0xA,0x5,0xB,0x9,0xE,0x8,0xD,0x7,0x0,0x3,0xF,0x1]
def K10 : List Nat := [0x6,0x8,0x2,0x3,0x9,0xA,0x5,0xC,0x1,0xE,0x4,0x7,0xB,0xD,0x0,0xF]
def K11 : List Nat := [0xB,0x3,0x5,0x8,0x2,0xF,0xA,0xD,0xE,0x1,0x7,0x4,0xC,0x9,0x6,0x0]
def K12 : List Nat := [0xC,0x8,0x2,0x1,0xD,0x4,0xF,0x6,0x7,0x0,0xA,0x5,0x3,0xE,0x9,0xB]
def K13 : List Nat := [0x7,0xF,0x5,0xA,0x8,0x1,0x6,0xD,0x0,0x9,0x3,0xE,0xB,0x4,0x2,0xC]
def K14 : List Nat := [0x5,0xD,0xF,0x6,0x9,0x2,0xC,0xA,0xB,0x7,0x8,0x1,0x4,0x3,0xE,0x0]
def K15 : List Nat := [0x8,0xE,0x2,0x5,0x6,0x9,0x1,0xC,0xF,0x4,0xB,0x0,0xD,0xA,0x3,0x7]
def K16 : List Nat := [0x1,0x7,0xE,0xD,0x0,0x5,0x8,0x3,0x4,0xF,0xA,0x6,0x9,0xC,0xB,0x2]

/-- `kboxinit`: `k21[i] = (K2[(i >> 4) & 15] << 4) | K1[i & 15]` (all files). -/
def k21 (i : Nat) : Nat := (K2.getD ((i >>> 4) &&& 15) 0) <<< 4 ||| K1.getD (i &&& 15) 0
def k43 (i : Nat) : Nat := (K4.getD ((i >>> 4) &&& 15) 0) <<< 4 ||| K3.getD (i &&& 15) 0
def k65 (i : Nat) : Nat := (K6.getD ((i >>> 4) &&& 15) 0) <<< 4 ||| K5.getD (i &&& 15) 0
def k87 (i : Nat) : Nat := (K8.getD ((i >>> 4) &&& 15) 0) <<< 4 ||| K7.getD (i &&& 15) 0
def k109 (i : Nat) : Nat := (K10.getD ((i >>> 4) &&& 15) 0) <<< 4 ||| K9.getD (i &&& 15) 0
def k131 (i : Nat) : Nat := (K12.getD ((i >>> 4) &&& 15) 0) <<< 4 ||| K11.getD (i &&& 15) 0
def k153 (i : Nat) : Nat := (K14.getD ((i >>> 4) &&& 15) 0) <<< 4 ||| K13.getD (i &&& 15) 0
def k175 (i : Nat) : Nat := (K16.getD ((i >>> 4) &&& 15) 0) <<< 4 ||| K15.getD (i &&& 15) 0

/-- `u64::rotate_left(x, 11)`: the shifted-out high 11 bits wrap to the bottom. -/
def rotl11 (x : Nat) : Nat := ((x <<< 11) % 2 ^ 64) ||| (x >>> 53)

/-- Round function `f` (`KBoxes::f` / `f_gost` / `f` in the sources):
split into 32-bit halves, substitute each byte through the composed tables,
reassemble, rotate left by 11. -/
def f (x : Nat) : Nat :=
  rotl11 ((((k87 ((x >>> 32 >>> 24) &&& 255)) <<< 24 |||
            (k65 ((x >>> 32 >>> 16) &&& 255)) <<< 16 |||
            (k43 ((x >>> 32 >>> 8) &&& 255)) <<< 8 |||
            (k21 ((x >>> 32) &&& 255))) <<< 32) |||
          (((k175 (((x &&& 0xffffffff) >>> 24) &&& 255)) <<< 24 |||
            (k153 (((x &&& 0xffffffff) >>> 16) &&& 255)) <<< 16 |||
            (k131 (((x &&& 0xffffffff) >>> 8) &&& 255)) <<< 8 |||
            (k109 ((x &&& 0xffffffff) &&& 255))) &&& 0xffffffff))

/-- One double-round of `gostcrypt` with round index `r` (keys `2r`, `2r+1`):
`b ^= f(a.wrapping_add(key[2r])); a ^= f(b.wrapping_add(key[2r+1]))`. -/
def encStep (key : List Nat) (r : Nat) (ab : Nat × Nat) : Nat × Nat :=
  (ab.1 ^^^ f (((ab.2 ^^^ f ((ab.1 + key.getD (2 * r) 0) % 2 ^ 64)) +
      key.getD (2 * r + 1) 0) % 2 ^ 64),
   ab.2 ^^^ f ((ab.1 + key.getD (2 * r) 0) % 2 ^ 64))

/-- One double-round of `gostdecrypt` with round index `j` (keys `63-2j`, `62-2j`):
`b ^= f(a.wrapping_add(key[k])); k -= 1; a ^= f(b.wrapping_add(key[k])); k -= 1`
starting from `k = 63`. -/
def decStep (key : List Nat) (j : Nat) (ab : Nat × Nat) : Nat × Nat :=
  (ab.1 ^^^ f (((ab.2 ^^^ f ((ab.1 + key.getD (63 - 2 * j) 0) % 2 ^ 64)) +
      key.getD (62 - 2 * j) 0) % 2 ^ 64),
   ab.2 ^^^ f ((ab.1 + key.getD (63 - 2 * j) 0) % 2 ^ 64))

/-- `gostcrypt`: 32 double-rounds, then the two halves are swapped. -/
def gostcrypt (input : Nat × Nat) (key : List Nat) : Nat × Nat :=
  let ab := (List.range 32).foldl (fun s r => encStep key r s) input
  (ab.2, ab.1)

/-- `gostdecrypt`: 32 double-rounds with subkeys in reverse order, halves swapped. -/
def gostdecrypt (input : Nat × Nat) (key : List Nat) : Nat × Nat :=
  let ab := (List.range 32).foldl (fun s j => decStep key j s) input
  (ab.2, ab.1)

/- ===================== byte/word conversions ===================== -/

/-- Big-endian byte fold `a = (a << 8) | byte` (`be_bytes_to_words` loop in
`gost2file.rs`; `u64::from_be_bytes` in `gost2gcm.rs` has the same value). -/
def beWord (l : List Nat) : Nat := l.foldl (fun a b => (a <<< 8) ||| b) 0

/-- `be_bytes_to_words`: a 16-byte block as two big-endian 64-bit halves. -/
def be_bytes_to_words (b : List Nat) : Nat × Nat :=
  (beWord (b.take 8), beWord ((b.drop 8).take 8))

/-- Big-endian bytes of a 64-bit word: `out[7 - i] = (v >> (i*8)) & 0xFF`. -/
def wordBytes (v : Nat) : List Nat :=
  (List.range 8).map (fun j => (v >>> ((7 - j) * 8)) &&& 255)

/-- `be_words_to_bytes`: serialize the two halves big-endian. -/
def be_words_to_bytes (w : Nat × Nat) : List Nat := wordBytes w.1 ++ wordBytes w.2

/-- One 16-byte block through `gostcrypt` (block step of `cbc_encrypt_stream`,
and `gost_encrypt_block` of `gost2gcm.rs`). -/
def encryptBlockBytes (key : List Nat) (blk : List Nat) : List Nat :=
  be_words_to_bytes (gostcrypt (be_bytes_to_words blk) key)

/-- One 16-byte block through `gostdecrypt` (block step of `cbc_decrypt_stream`). -/
def decryptBlockBytes (key : List Nat) (blk : List Nat) : List Nat :=
  be_words_to_bytes (gostdecrypt (be_bytes_to_words blk) key)

/-- Bytewise XOR of two buffers (`for i in 0..16 { x[i] ^= y[i] }`). -/
def xorBytes (a b : List Nat) : List Nat := List.zipWith (fun x y => x ^^^ y) a b

/- ===================== MD2II password hash ===================== -/

/-- The 256-byte substitution table `s4` of the MD2II hash (identical in all
three sources). -/
def S4 : Array Nat := #[
  13,199,11,67,237,193,164,77,115,184,141,222,73,38,147,36,150,87,21,104,12,61,156,101,111,145,
  119,22,207,35,198,37,171,167,80,30,219,28,213,121,86,29,214,242,6,4,89,162,110,175,19,157,
  3,88,234,94,144,118,159,239,100,17,182,173,238,68,16,79,132,54,163,52,9,58,57,55,229,192,
  170,226,56,231,187,158,70,224,233,245,26,47,32,44,247,8,251,20,197,185,109,153,204,218,93,178,
  212,137,84,174,24,120,130,149,72,180,181,208,255,189,152,18,143,176,60,249,27,227,128,139,243,253,
  59,123,172,108,211,96,138,10,215,42,225,40,81,65,90,25,98,126,154,64,124,116,122,5,1,168,83,190,
  131,191,244,240,235,177,155,228,125,66,43,201,248,220,129,188,230,62,75,71,78,34,31,216,254,136,91,
  114,106,46,217,196,92,151,209,133,51,236,33,252,127,179,69,7,183,105,146,97,39,15,205,112,200,166,
  223,45,48,246,186,41,148,140,107,76,85,95,194,142,50,49,134,23,135,169,221,210,203,63,165,82,161,
  202,53,14,206,232,103,102,195,117,250,99,0,74,160,241,2,113]

/-- MD2II hashing state (`KeyHash` in `gost2file.rs`, `HashState` in
`gost2gcm.rs`, the globals `X1 X2 H1 H2` in `gost2-128.rs`): accumulator `x1`,
absorb cursor `x2`, checksum half `h2[0..512]`, compression buffer
`h1[0..1536]`. -/
structure MDState where
  x1 : Nat
  x2 : Nat
  h2 : Array Nat
  h1 : Array Nat

/-- `init_gost_keyhash` / `HashState::new` / `init`: the all-zero state. -/
def initMDState : MDState :=
  ⟨0, 0, Array.mkArray 512 0, Array.mkArray 1536 0⟩

/-- Body of the inner absorb loop of `hashing` for one input byte `b`:
`h1[x2+512] = b; h1[x2+1024] = b ^ h1[x2]; x1 = h2[x2] ^ s4[(b ^ x1) & 0xff];
h2[x2] = x1; x2 += 1`. -/
def absorbByte (s : MDState) (b : Nat) : MDState :=
  let t := (s.h2.getD s.x2 0) ^^^ (S4.getD ((b ^^^ s.x1) % 256) 0)
  { x1 := t
    x2 := s.x2 + 1
    h2 := s.h2.setD s.x2 t
    h1 := (s.h1.setD (s.x2 + 512) b).setD (s.x2 + 1024) (b ^^^ s.h1.getD s.x2 0) }

/-- One outer compression round `b3`: a pass over all 1536 bytes of `h1`
(`b2 = h1[b1] ^= s4[b2]`), then `b2 = (b2 + b3) % 256`. -/
def compressRound (p : Array Nat × Nat) (b3 : Nat) : Array Nat × Nat :=
  let q := (List.range 1536).foldl (fun (p : Array Nat × Nat) b1 =>
    let t := (p.1.getD b1 0) ^^^ (S4.getD (p.2 % 256) 0)
    (p.1.setD b1 t, t)) p
  (q.1, (q.2 + b3) % 256)

/-- The compression transform of `hashing` (the `if x2 == N1` body): `N1 + 2 =
514` rounds over `h1` starting with `b2 = 0`, and the cursor resets to 0. -/
def compress (s : MDState) : MDState :=
  let q := (List.range 514).foldl compressRound (s.h1, 0)
  { s with x2 := 0, h1 := q.1 }

/-- The two nested `while` loops of `hashing`, byte at a time, also counting
how many times the compression transform runs.  The source absorbs while
`b6 > 0 && x2 < N1` and compresses whenever the cursor reaches `N1`: per input
byte that is "compress first when `x2 = 512`, then absorb", and after the final
byte one more compression when the cursor has just reached 512. -/
def hashingAux (s : MDState) : List Nat → MDState × Nat
  | [] => if s.x2 = 512 then (compress s, 1) else (s, 0)
  | b :: rest =>
    let s1 := if s.x2 = 512 then compress s else s
    let c1 := if s.x2 = 512 then 1 else 0
    let r := hashingAux (absorbByte s1 b) rest
    (r.1, c1 + r.2)

/-- `hashing` (all three sources): with an empty input the outer `while b6 > 0`
loop does not run at all and the state is unchanged. -/
def hashing (s : MDState) (t : List Nat) : MDState :=
  match t with
  | [] => s
  | _ :: _ => (hashingAux s t).1

/-- Number of compression-transform runs a `hashing` call performs. -/
def hashingCompressions (s : MDState) (t : List Nat) : Nat :=
  match t with
  | [] => 0
  | _ :: _ => (hashingAux s t).2

/-- `end_gost_keyhash` / `end_hash` / `end_fn`: absorb `n4 = 512 - x2` copies
of the byte `n4 as u8`, then absorb the 512-byte snapshot of `h2`, and emit
`h1[0..512]` as the digest. -/
def end_hash (s : MDState) : List Nat :=
  let n4 := 512 - s.x2
  let s1 := hashing s (List.replicate n4 (n4 % 256))
  let s2 := hashing s1 ((List.range 512).map (fun i => s1.h2.getD i 0))
  (List.range 512).map (fun i => s2.h1.getD i 0)

/- ===================== key schedule ===================== -/

/-- `create_keys` of `gost2gcm.rs` (also `gost2file.rs`): for each of the 64
subkeys, eight steps of `v = (v << 8) + h4[k]` starting from `v = 0` (the `u64`
shift discards the high byte). -/
def create_keys (h4 : List Nat) : List Nat :=
  (List.range 64).map (fun i =>
    ((List.range 8).map (fun j => h4.getD (8 * i + j) 0)).foldl
      (fun v b => ((v <<< 8) % 2 ^ 64) + b) 0)

/-- `create_keys` of `gost2-128.rs`: `key[i] = (key[i] << 8) + (h4[k] & 0xff)`,
reusing the caller's `key` array as the accumulator, so an arbitrary initial
`key0` is shifted out over the eight steps. -/
def create_keys_into (key0 h4 : List Nat) : List Nat :=
  (List.range 64).map (fun i =>
    ((List.range 8).map (fun j => h4.getD (8 * i + j) 0)).foldl
      (fun v b => ((v <<< 8) % 2 ^ 64) + (b &&& 255)) (key0.getD i 0))

/-- Modelled on the spec wording of the key schedule: subkey `i` is "the
big-endian integer formed by bytes `digest[8i .. 8i+8]`". -/
def spec_be_u64_subkey (digest : List Nat) (i : Nat) : Nat :=
  digest.getD (8 * i) 0 * 256 ^ 7 + digest.getD (8 * i + 1) 0 * 256 ^ 6 +
  digest.getD (8 * i + 2) 0 * 256 ^ 5 + digest.getD (8 * i + 3) 0 * 256 ^ 4 +
  digest.getD (8 * i + 4) 0 * 256 ^ 3 + digest.getD (8 * i + 5) 0 * 256 ^ 2 +
  digest.getD (8 * i + 6) 0 * 256 + digest.getD (8 * i + 7) 0

/-- `derive_gost_subkeys_from_password` / `derive_key_from_password`: absorb
the password bytes from the initial state, finalize, pack into 64 subkeys. -/
def derive_key_from_password (pw : List Nat) : List Nat :=
  create_keys (end_hash (hashing initMDState pw))

/- ===================== SHA-256 (gost2file.rs) ===================== -/

/-- `ROTRIGHT(a,b)` on `u32`: `(a >> b) | (a << (32-b))`, high bits truncated. -/
def rotright (a b : Nat) : Nat := (a >>> b) ||| ((a <<< (32 - b)) % 2 ^ 32)

/-- `CH(x,y,z) = (x & y) ^ (~x & z)`; `~x` on `u32` is XOR with `0xFFFFFFFF`. -/
def ch (x y z : Nat) : Nat := (x &&& y) ^^^ ((x ^^^ 0xffffffff) &&& z)

/-- `MAJ(x,y,z) = (x & y) ^ (x & z) ^ (y & z)`. -/
def maj (x y z : Nat) : Nat := (x &&& y) ^^^ (x &&& z) ^^^ (y &&& z)

def ep0 (x : Nat) : Nat := rotright x 2 ^^^ rotright x 13 ^^^ rotright x 22
def ep1 (x : Nat) : Nat := rotright x 6 ^^^ rotright x 11 ^^^ rotright x 25
def sig0 (x : Nat) : Nat := rotright x 7 ^^^ rotright x 18 ^^^ (x >>> 3)
def sig1 (x : Nat) : Nat := rotright x 17 ^^^ rotright x 19 ^^^ (x >>> 10)

/-- SHA-256 round constants `K256` (the 64 values of the source table, written
in decimal). -/
def K256 : List Nat := [
  1116352408,1899447441,3049323471,3921009573,961987163,1508970993,
  2453635748,2870763221,3624381080,310598401,607225278,1426881987,
  1925078388,2162078206,2614888103,3248222580,3835390401,4022224774,
  264347078,604807628,770255983,1249150122,1555081692,1996064986,
  2554220882,2821834349,2952996808,3210313671,3336571891,3584528711,
  113926993,338241895,666307205,773529912,1294757372,1396182291,
  1695183700,1986661051,2177026350,2456956037,2730485921,2820302411,
  3259730800,3345764771,3516065817,3600352804,4094571909,275423344,
  430227734,506948616,659060556,883997877,958139571,1322822218,
  1537002063,1747873779,1955562222,2024104815,2227730452,2361852424,
  2428436474,2756734187,3204031479,3329325298]

/-- Message schedule of `sha256_transform`: 16 big-endian words from the data
block, then `m[i] = SIG1(m[i-2]) + m[i-7] + SIG0(m[i-15]) + m[i-16]` wrapping. -/
def sha256_schedule (data : List Nat) : List Nat :=
  (List.range 64).foldl (fun m i =>
    m ++ [if i < 16 then
            (data.getD (4 * i) 0) <<< 24 ||| (data.getD (4 * i + 1) 0) <<< 16 |||
            (data.getD (4 * i + 2) 0) <<< 8 ||| data.getD (4 * i + 3) 0
          else
            (sig1 (m.getD (i - 2) 0) + m.getD (i - 7) 0 + sig0 (m.getD (i - 15) 0) +
              m.getD (i - 16) 0) % 2 ^ 32]) []

/-- `sha256_transform`: 64 rounds over the register file `[a,b,c,d,e,f,g,h]`,
then the registers are added into the state (all `u32` adds wrap; a chain of
wrapping adds equals the sum taken `% 2^32` once). -/
def sha256_transform (state data : List Nat) : List Nat :=
  let m := sha256_schedule data
  let st := (List.range 64).foldl (fun st i =>
    let a := st.getD 0 0
    let b := st.getD 1 0
    let c := st.getD 2 0
    let d := st.getD 3 0
    let e := st.getD 4 0
    let fv := st.getD 5 0
    let g := st.getD 6 0
    let hv := st.getD 7 0
    let t1 := (hv + ep1 e + ch e fv g + K256.getD i 0 + m.getD i 0) % 2 ^ 32
    let t2 := (ep0 a + maj a b c) % 2 ^ 32
    [(t1 + t2) % 2 ^ 32, a, b, c, (d + t1) % 2 ^ 32, e, fv, g]) state
  List.zipWith (fun x y => (x + y) % 2 ^ 32) state st

/-- `sha256_init` state. -/
def sha256_init_state : List Nat :=
  [1779033703, 3144134277, 1013904242, 2773480762,
   1359893119, 2600822924, 528734635, 1541459225]

/-- Structural worker for 64-byte chunking (the fuel is an upper bound on the
list length, so it never runs out; structural recursion keeps the function
computable by the kernel). -/
def chunks64Fuel : Nat → List Nat → List (List Nat)
  | 0, _ => []
  | fuel + 1, l => if l = [] then [] else l.take 64 :: chunks64Fuel fuel (l.drop 64)

/-- Split a byte string into consecutive 64-byte chunks (the final chunk may be
short); this is the sequence of blocks `sha256_update`/`sha256_final` feed to
the transform once padding has been appended. -/
def toBlocks64 (l : List Nat) : List (List Nat) := chunks64Fuel l.length l

/-- `sha256` of a whole message: append `0x80`, zero-fill to 56 mod 64, append
the bit length as a big-endian `u64` (wrapping), transform each 64-byte block,
serialize the state big-endian. -/
def sha256 (msg : List Nat) : List Nat :=
  let padded := msg ++ [0x80] ++ List.replicate ((119 - msg.length % 64) % 64) 0 ++
    wordBytes ((8 * msg.length) % 2 ^ 64)
  let st := (toBlocks64 padded).foldl sha256_transform sha256_init_state
  ((List.range 8).map (fun i =>
    [(st.getD i 0 >>> 24) &&& 255, (st.getD i 0 >>> 16) &&& 255,
     (st.getD i 0 >>> 8) &&& 255, st.getD i 0 &&& 255])).flatten

/- ===================== CBC file codec (gost2file.rs) ===================== -/

/-- Structural worker for 16-byte chunking (fuel bounds the length). -/
def chunks16Fuel : Nat → List Nat → List (List Nat)
  | 0, _ => []
  | fuel + 1, l => if l = [] then [] else l.take 16 :: chunks16Fuel fuel (l.drop 16)

/-- Split a byte string into consecutive 16-byte blocks (callers only use it on
strings whose length is a positive multiple of 16). -/
def toBlocks16 (l : List Nat) : List (List Nat) := chunks16Fuel l.length l

/-- `pkcs7_pad`: append `pad = 16 - len % 16` bytes of value `pad` (a whole
block of `0x10` when the length is already a multiple of 16). -/
def pkcs7_pad (buf : List Nat) : List Nat :=
  buf ++ List.replicate (16 - buf.length % 16) (16 - buf.length % 16)

/-- `pkcs7_unpad`: `none` where the source returns `false` (empty or non
multiple-of-16 buffer, pad byte outside `[1,16]`, or a trailing byte differing
from the pad byte); otherwise the buffer with the last `pad` bytes removed. -/
def pkcs7_unpad (buf : List Nat) : Option (List Nat) :=
  if buf.length = 0 ∨ buf.length % 16 ≠ 0 then none
  else if buf.getLastD 0 = 0 ∨ buf.getLastD 0 > 16 then none
  else if (List.range (buf.getLastD 0)).all
      (fun i => buf.getD (buf.length - 1 - i) 0 == buf.getLastD 0) then
    some (buf.take (buf.length - buf.getLastD 0))
  else none

/-- CBC chaining loop of `cbc_encrypt_stream`: each 16-byte plaintext block is
XORed with the previous ciphertext block and encrypted. -/
def cbc_encrypt_blocks (key prev : List Nat) : List (List Nat) → List (List Nat)
  | [] => []
  | p :: rest =>
    let c := encryptBlockBytes key (xorBytes p prev)
    c :: cbc_encrypt_blocks key c rest

/-- `cbc_encrypt_stream` as a function from the input bytes to the output file
bytes: `IV ‖ C ‖ SHA256(C)` where `C` encrypts the PKCS#7-padded input. -/
def cbc_encrypt_stream (key iv msg : List Nat) : List Nat :=
  let ct := (cbc_encrypt_blocks key iv (toBlocks16 (pkcs7_pad msg))).flatten
  iv ++ ct ++ sha256 ct

/-- CBC chaining loop of `cbc_decrypt_stream`: decrypt each ciphertext block
and XOR with the previous ciphertext block. -/
def cbc_decrypt_blocks (key prev : List Nat) : List (List Nat) → List (List Nat)
  | [] => []
  | c :: rest => xorBytes (decryptBlockBytes key c) prev :: cbc_decrypt_blocks key c rest

/-- Error outcomes of `cbc_decrypt_stream` (each constructor corresponds to one
`Err` return of the source). -/
inductive CbcError where
  | tooSmall
  | badSize
  | noFinalBlock
  | badPadding
deriving DecidableEq

/-- Emit step of `cbc_decrypt_stream`: `pkcs7_unpad` failing on the final
block is the invalid-padding error; otherwise the held-back blocks and the
stripped final block are the plaintext, and the recomputed SHA-256 of the
ciphertext is compared with the stored hash. -/
def cbc_emit (ct stored_hash : List Nat) (pblocks : List (List Nat)) :
    Option (List Nat) → Except CbcError (List Nat × Bool)
  | none => .error .badPadding
  | some stripped =>
    .ok (pblocks.dropLast.flatten ++ stripped, sha256 ct == stored_hash)

/-- Final-block step of `cbc_decrypt_stream`: `pending_plain` empty after the
loop is the no-final-block error; otherwise the final block is unpadded. -/
def cbc_finalize (ct stored_hash : List Nat) (pblocks : List (List Nat)) :
    Option (List Nat) → Except CbcError (List Nat × Bool)
  | none => .error .noFinalBlock
  | some lastBlk => cbc_emit ct stored_hash pblocks (pkcs7_unpad lastBlk)

/-- The streaming part of `cbc_decrypt_stream`, reached once both size checks
have passed: IV is the first 16 bytes, the stored hash the last 32, the
ciphertext the region between; the blocks are decrypted holding back the final
plaintext block, PKCS#7 is stripped from it, and the recomputed SHA-256 of the
ciphertext is compared with the stored hash. -/
def cbc_decrypt_body (key file : List Nat) : Except CbcError (List Nat × Bool) :=
  cbc_finalize ((file.drop 16).take (file.length - 48)) (file.drop (file.length - 32))
    (cbc_decrypt_blocks key (file.take 16)
      (toBlocks16 ((file.drop 16).take (file.length - 48))))
    (cbc_decrypt_blocks key (file.take 16)
      (toBlocks16 ((file.drop 16).take (file.length - 48)))).getLast?

/-- `cbc_decrypt_stream` as a function from the file bytes to either an error
or `(plaintext, auth_ok)`: require at least `16 + 32` bytes, require the
ciphertext region `remaining = size - 48` nonempty and a multiple of 16, then
stream-decrypt. -/
def cbc_decrypt_stream (key file : List Nat) : Except CbcError (List Nat × Bool) :=
  if file.length < 16 + 32 then .error .tooSmall
  else if file.length - 48 = 0 ∨ (file.length - 48) % 16 ≠ 0 then .error .badSize
  else cbc_decrypt_body key file

/-- Outcome of the decryption driver (`main` of `gost2file.rs`): whether the
output file was removed, the printed authentication verdict, and the process
exit code. -/
structure DriverOutcome where
  outputRemoved : Bool
  reportedAuth : Option Bool
  exitCode : Nat
deriving DecidableEq

/-- Driver behavior of `main` (decrypt branch): on `Ok(auth_ok)` the output is
kept, the verdict printed and the exit code is 0 (`err` stays `false` even when
authentication failed); on `Err` the output file is removed and the exit code
is 2. -/
def cbcDriver (r : Except CbcError (List Nat × Bool)) : DriverOutcome :=
  match r with
  | .ok (_, auth) => ⟨false, some auth, 0⟩
  | .error _ => ⟨true, none, 2⟩

/- ===================== GCM helpers (gost2gcm.rs) ===================== -/

/-- Big-endian logical 128-bit value stored as two 64-bit halves (`Be128`). -/
structure Be128 where
  hi : Nat
  lo : Nat
deriving DecidableEq

/-- `load_be128`: two `u64::from_be_bytes` reads of a 16-byte buffer. -/
def load_be128 (b : List Nat) : Be128 :=
  ⟨beWord (b.take 8), beWord ((b.drop 8).take 8)⟩

/-- `store_be128`: serialize the halves big-endian. -/
def store_be128 (x : Be128) : List Nat := wordBytes x.hi ++ wordBytes x.lo

def be128_xor (a b : Be128) : Be128 := ⟨a.hi ^^^ b.hi, a.lo ^^^ b.lo⟩

/-- `be128_shr1`: logical 128-bit right shift by one. -/
def be128_shr1 (v : Be128) : Be128 :=
  ⟨v.hi >>> 1, (v.lo >>> 1) ||| ((v.hi &&& 1) <<< 63)⟩

/-- `be128_shl1`: logical 128-bit left shift by one (`u64` shifts discard the
high bit). -/
def be128_shl1 (v : Be128) : Be128 :=
  ⟨((v.hi <<< 1) % 2 ^ 64) ||| (v.lo >>> 63), (v.lo <<< 1) % 2 ^ 64⟩

/-- `gf_mult`: GF(2^128) multiplication by the right-shift method with
reduction constant `R = 0xE1 || 0^120`. -/
def gf_mult (x y : Be128) : Be128 :=
  let R : Be128 := ⟨0xE100000000000000, 0⟩
  let t := (List.range 128).foldl (fun (t : Be128 × Be128 × Be128) _ =>
    let z := if t.1.hi &&& 0x8000000000000000 ≠ 0 then be128_xor t.2.2 t.2.1 else t.2.2
    let lsb := t.2.1.lo &&& 1
    let y1 := be128_shr1 t.2.1
    let y2 := if lsb ≠ 0 then be128_xor y1 R else y1
    (be128_shl1 t.1, y2, z)) (x, y, ⟨0, 0⟩)
  t.2.2

/-- `ghash_update`: `Y <- (Y ^ X) * H` with `X` loaded big-endian. -/
def ghash_update (y h : Be128) (blk : List Nat) : Be128 :=
  gf_mult (be128_xor y (load_be128 blk)) h

/-- `inc32`: the trailing 32 bits of the counter as a big-endian `u32`,
incremented wrapping, written back; the leading 12 bytes are unchanged. -/
def inc32 (ctr : List Nat) : List Nat :=
  let c := ((ctr.getD 12 0) <<< 24 ||| (ctr.getD 13 0) <<< 16 |||
            (ctr.getD 14 0) <<< 8 ||| ctr.getD 15 0)
  let c1 := (c + 1) % 2 ^ 32
  ctr.take 12 ++ [(c1 >>> 24) &&& 255, (c1 >>> 16) &&& 255, (c1 >>> 8) &&& 255, c1 &&& 255]

/-- The two GHASH loops of `derive_j0` over the IV: full 16-byte blocks, then
the zero-padded partial block when some bytes remain. -/
def ghash_iv_chunks (y hbe : Be128) (iv : List Nat) : Be128 :=
  if h : iv = [] then y
  else ghash_iv_chunks
    (ghash_update y hbe (iv.take 16 ++ List.replicate (16 - iv.length) 0)) hbe
    (iv.drop 16)
termination_by iv.length
decreasing_by
  have : iv.length ≠ 0 := fun hl => h (List.eq_nil_of_length_eq_zero hl)
  simp [List.length_drop]
  omega

/-- `derive_j0`: GHASH the IV (generic-length branch), then the length block
`0^64 || [len(IV) in bits]_64`. -/
def derive_j0 (iv : List Nat) (hbe : Be128) : List Nat :=
  let y := ghash_iv_chunks ⟨0, 0⟩ hbe iv
  store_be128 (ghash_update y hbe
    (List.replicate 8 0 ++ wordBytes ((iv.length * 8) % 2 ^ 64)))

/-- `ct_memcmp`: OR-accumulate byte XORs over the common length, then fold in
the XOR of the lengths truncated to `u8`. -/
def ct_memcmp (a b : List Nat) : Nat :=
  ((List.range (min a.length b.length)).foldl
    (fun r i => r ||| (a.getD i 0 ^^^ b.getD i 0)) 0) |||
  ((a.length ^^^ b.length) % 256)

/- ===================== GCM file codec (gost2gcm.rs) ===================== -/

/-- CTR/GHASH loop of `encrypt_file` over ≤16-byte chunks of the plaintext:
keystream `E_K(ctr)`, `C = P ^ ks`, GHASH absorbs the zero-padded ciphertext
block; returns the ciphertext bytes and the final GHASH accumulator.  (The
4096-byte read buffer of the source is a multiple of 16, so full reads chunk
the stream exactly as this recursion does.) -/
def gcm_ctr_enc (key : List Nat) (hbe : Be128) (ctr : List Nat) (s : Be128)
    (m : List Nat) : List Nat × Be128 :=
  if h : m = [] then ([], s)
  else
    (xorBytes (m.take (min 16 m.length))
        ((encryptBlockBytes key ctr).take (min 16 m.length)) ++
      (gcm_ctr_enc key hbe (inc32 ctr)
        (ghash_update s hbe (xorBytes (m.take (min 16 m.length))
          ((encryptBlockBytes key ctr).take (min 16 m.length)) ++
          List.replicate (16 - min 16 m.length) 0))
        (m.drop (min 16 m.length))).1,
     (gcm_ctr_enc key hbe (inc32 ctr)
        (ghash_update s hbe (xorBytes (m.take (min 16 m.length))
          ((encryptBlockBytes key ctr).take (min 16 m.length)) ++
          List.replicate (16 - min 16 m.length) 0))
        (m.drop (min 16 m.length))).2)
termination_by m.length
decreasing_by
  all_goals
    have : m.length ≠ 0 := fun hl => h (List.eq_nil_of_length_eq_zero hl)
    simp [List.length_drop]
    omega

/-- CTR/GHASH loop of `decrypt_file` over ≤16-byte chunks of the ciphertext:
GHASH absorbs the zero-padded ciphertext block, then `P = C ^ ks`. -/
def gcm_ctr_dec (key : List Nat) (hbe : Be128) (ctr : List Nat) (s : Be128)
    (c : List Nat) : List Nat × Be128 :=
  if h : c = [] then ([], s)
  else
    (xorBytes (c.take (min 16 c.length))
        ((encryptBlockBytes key ctr).take (min 16 c.length)) ++
      (gcm_ctr_dec key hbe (inc32 ctr)
        (ghash_update s hbe (c.take (min 16 c.length) ++
          List.replicate (16 - min 16 c.length) 0))
        (c.drop (min 16 c.length))).1,
     (gcm_ctr_dec key hbe (inc32 ctr)
        (ghash_update s hbe (c.take (min 16 c.length) ++
          List.replicate (16 - min 16 c.length) 0))
        (c.drop (min 16 c.length))).2)
termination_by c.length
decreasing_by
  all_goals
    have : c.length ≠ 0 := fun hl => h (List.eq_nil_of_length_eq_zero hl)
    simp [List.length_drop]
    omega

/-- `encrypt_file` as a function from the plaintext bytes (and the generated
IV) to the output file bytes `IV ‖ C ‖ TAG`: `H = E_K(0^128)`, `J0` from the
IV, CTR from `inc32(J0)`, GHASH over the ciphertext then the lengths block
`0^64 || [8·|C|]_64`, tag `E_K(J0) ^ S`. -/
def encrypt_file (key iv msg : List Nat) : List Nat :=
  let hbe := load_be128 (encryptBlockBytes key (List.replicate 16 0))
  let j0 := derive_j0 iv hbe
  let r := gcm_ctr_enc key hbe (inc32 j0) ⟨0, 0⟩ msg
  let s := ghash_update r.2 hbe
    (List.replicate 8 0 ++ wordBytes ((msg.length * 8) % 2 ^ 64))
  iv ++ r.1 ++ xorBytes (encryptBlockBytes key j0) (store_be128 s)

/-- `decrypt_file` as a function from the file bytes to `none` (the source's
`Err` returns for truncated files) or `(plaintext, auth_ok)` where `auth_ok`
is the constant-time comparison of the stored and recomputed tags. -/
def decrypt_file (key file : List Nat) : Option (List Nat × Bool) :=
  if file.length < 32 then none
  else if file.length - 16 < 16 then none
  else
    let iv := file.take 16
    let ciph_len := file.length - 16 - 16
    let ct := (file.drop 16).take ciph_len
    let tag := file.drop (file.length - 16)
    let hbe := load_be128 (encryptBlockBytes key (List.replicate 16 0))
    let j0 := derive_j0 iv hbe
    let r := gcm_ctr_dec key hbe (inc32 j0) ⟨0, 0⟩ ct
    let s := ghash_update r.2 hbe
      (List.replicate 8 0 ++ wordBytes ((ciph_len * 8) % 2 ^ 64))
    let tcalc := xorBytes (encryptBlockBytes key j0) (store_be128 s)
    some (r.1, ct_memcmp tag tcalc == 0)

/-- The plaintext `decrypt_file` streams out (the concatenation of `C ^ ks`
chunks), as a function of the file. -/
def gcm_plaintext (key file : List Nat) : List Nat :=
  (gcm_ctr_dec key (load_be128 (encryptBlockBytes key (List.replicate 16 0)))
    (inc32 (derive_j0 (file.take 16)
      (load_be128 (encryptBlockBytes key (List.replicate 16 0)))))
    ⟨0, 0⟩ ((file.drop 16).take (file.length - 16 - 16))).1

/-- The tag `decrypt_file` recomputes (`E_K(J0) ^ S` after the lengths block),
as a function of the file. -/
def gcm_recomputed_tag (key file : List Nat) : List Nat :=
  xorBytes
    (encryptBlockBytes key (derive_j0 (file.take 16)
      (load_be128 (encryptBlockBytes key (List.replicate 16 0)))))
    (store_be128 (ghash_update
      (gcm_ctr_dec key (load_be128 (encryptBlockBytes key (List.replicate 16 0)))
        (inc32 (derive_j0 (file.take 16)
          (load_be128 (encryptBlockBytes key (List.replicate 16 0)))))
        ⟨0, 0⟩ ((file.drop 16).take (file.length - 16 - 16))).2
      (load_be128 (encryptBlockBytes key (List.replicate 16 0)))
      (List.replicate 8 0 ++ wordBytes (((file.length - 16 - 16) * 8) % 2 ^ 64))))

/- ===================== theorems: GOST2-128 core ===================== -/

theorem xor_cancel_r (a b : Nat) : a ^^^ b ^^^ b = a := by
  rw [Nat.xor_assoc, Nat.xor_self, Nat.xor_zero]

/-- `decStep j` undoes `encStep (31-j)` modulo the swap of the two halves. -/
theorem decStep_inv (key : List Nat) (n : Nat) (hn : n ≤ 31) (ab : Nat × Nat) :
    decStep key n ((encStep key (31 - n) ab).2, (encStep key (31 - n) ab).1) =
      (ab.2, ab.1) := by
  have h1 : 63 - 2 * n = 2 * (31 - n) + 1 := by omega
  have h2 : 62 - 2 * n = 2 * (31 - n) := by omega
  simp only [decStep, encStep, h1, h2, xor_cancel_r]

/-- Unwinding lemma: the last `n` decryption double-rounds undo the last `n`
encryption double-rounds. -/
theorem decRounds_inv (key : List Nat) :
    ∀ n, n ≤ 32 → ∀ ab : Nat × Nat,
      (List.range n).foldl (fun s j => decStep key j s)
        (((List.range' (32 - n) n).foldl (fun s r => encStep key r s) ab).2,
         ((List.range' (32 - n) n).foldl (fun s r => encStep key r s) ab).1) =
      (ab.2, ab.1) := by
  intro n
  induction n with
  | zero => intro _ ab; simp
  | succ m ih =>
    intro hm ab
    have hr : List.range' (32 - (m + 1)) (m + 1) =
        (31 - m) :: List.range' (32 - m) m := by
      have h31 : 32 - (m + 1) = 31 - m := by omega
      have h32 : 31 - m + 1 = 32 - m := by omega
      rw [h31, List.range'_succ, h32]
    rw [hr, List.range_succ]
    simp only [List.foldl_cons, List.foldl_append, List.foldl_cons, List.foldl_nil]
    rw [ih (by omega) (encStep key (31 - m) ab)]
    exact decStep_inv key m (by omega) ab

/-- The raw cipher round trip, as a lemma for reuse by the block-level and
mode-level developments. -/
theorem gostdecrypt_gostcrypt_inverse (p : Nat × Nat) (key : List Nat) :
    gostdecrypt (gostcrypt p key) key = p := by
  have h := decRounds_inv key 32 (by omega) p
  simp only [Nat.sub_self, ← List.range_eq_range'] at h
  simp only [gostdecrypt, gostcrypt, h]

/-- Claim C1. Round-trip of the raw cipher: for every pair of 64-bit halves
and every subkey vector, `gostdecrypt (gostcrypt p key) key = p`. -/
theorem gostdecrypt_gostcrypt (p : Nat × Nat) (key : List Nat) :
    gostdecrypt (gostcrypt p key) key = p :=
  gostdecrypt_gostcrypt_inverse p key

/- ===================== theorems: conversions ===================== -/

theorem and255_eq_mod (x : Nat) : x &&& 255 = x % 256 := by
  have h : (255 : Nat) = 2 ^ 8 - 1 := rfl
  have := Nat.and_pow_two_sub_one_eq_mod x 8
  rw [h]
  simpa using this

theorem and255_lt (x : Nat) : x &&& 255 < 256 := by
  rw [and255_eq_mod]; omega

theorem shl8_or (a b : Nat) (hb : b < 256) : (a <<< 8) ||| b = 256 * a + b := by
  rw [Nat.shiftLeft_eq]
  have h := Nat.mul_add_lt_is_or (i := 8) (b := b) (by simpa using hb) a
  rw [Nat.mul_comm a (2 ^ 8)]
  rw [← h]

theorem shr_eq_div (x k : Nat) : x >>> k = x / 2 ^ k := Nat.shiftRight_eq_div_pow x k

theorem wordBytes_length (v : Nat) : (wordBytes v).length = 8 := by
  simp [wordBytes]

theorem wordBytes_lt (v : Nat) : ∀ x ∈ wordBytes v, x < 256 := by
  intro x hx
  simp only [wordBytes, List.mem_map] at hx
  obtain ⟨j, _, rfl⟩ := hx
  exact and255_lt _

theorem shl8_or_mod (a b : Nat) : (a <<< 8) ||| (b % 256) = 256 * a + b % 256 :=
  shl8_or a (b % 256) (by omega)

theorem beWord_wordBytes (v : Nat) (hv : v < 2 ^ 64) : beWord (wordBytes v) = v := by
  have hr : List.range 8 = [0, 1, 2, 3, 4, 5, 6, 7] := by decide
  simp only [wordBytes, hr, List.map_cons, List.map_nil, beWord, List.foldl_cons,
    List.foldl_nil]
  simp only [shr_eq_div, and255_eq_mod, shl8_or_mod]
  norm_num
  omega

theorem wordBytes_beWord (l : List Nat) (h8 : l.length = 8)
    (hb : ∀ x ∈ l, x < 256) : wordBytes (beWord l) = l := by
  match l, h8 with
  | [b0, b1, b2, b3, b4, b5, b6, b7], _ =>
    have h0 : b0 < 256 := hb _ (by simp)
    have h1 : b1 < 256 := hb _ (by simp)
    have h2 : b2 < 256 := hb _ (by simp)
    have h3 : b3 < 256 := hb _ (by simp)
    have h4 : b4 < 256 := hb _ (by simp)
    have h5 : b5 < 256 := hb _ (by simp)
    have h6 : b6 < 256 := hb _ (by simp)
    have h7 : b7 < 256 := hb _ (by simp)
    have hr : List.range 8 = [0, 1, 2, 3, 4, 5, 6, 7] := by decide
    simp only [beWord, List.foldl_cons, List.foldl_nil, wordBytes, hr,
      List.map_cons, List.map_nil]
    simp only [shl8_or _ _ h0, shl8_or _ _ h1, shl8_or _ _ h2, shl8_or _ _ h3,
      shl8_or _ _ h4, shl8_or _ _ h5, shl8_or _ _ h6, shl8_or _ _ h7,
      and255_eq_mod, shr_eq_div]
    norm_num
    omega

/- ===================== theorems: bounds ===================== -/

theorem getD_lt_of (l : List Nat) (m : Nat) (hm : 0 < m) (h : ∀ x ∈ l, x < m) :
    ∀ n, l.getD n 0 < m := by
  induction l with
  | nil => intro n; simpa using hm
  | cons a t ih =>
    intro n
    cases n with
    | zero => exact h a (by simp)
    | succ k =>
      simp only [List.getD_cons_succ]
      exact ih (fun x hx => h x (by simp [hx])) k

theorem ktab_lt (A B : List Nat) (hA : ∀ x ∈ A, x < 16) (hB : ∀ x ∈ B, x < 16)
    (i : Nat) : (A.getD ((i >>> 4) &&& 15) 0) <<< 4 ||| B.getD (i &&& 15) 0 < 256 := by
  have ha := getD_lt_of A 16 (by omega) hA ((i >>> 4) &&& 15)
  have hb := getD_lt_of B 16 (by omega) hB (i &&& 15)
  have h1 : (A.getD ((i >>> 4) &&& 15) 0) <<< 4 < 2 ^ 8 := by
    rw [Nat.shiftLeft_eq]; omega
  have h2 : B.getD (i &&& 15) 0 < 2 ^ 8 := by omega
  have := Nat.or_lt_two_pow h1 h2
  simpa using this

theorem k21_lt (i : Nat) : k21 i < 256 := ktab_lt K2 K1 (by decide) (by decide) i
theorem k43_lt (i : Nat) : k43 i < 256 := ktab_lt K4 K3 (by decide) (by decide) i
theorem k65_lt (i : Nat) : k65 i < 256 := ktab_lt K6 K5 (by decide) (by decide) i
theorem k87_lt (i : Nat) : k87 i < 256 := ktab_lt K8 K7 (by decide) (by decide) i
theorem k109_lt (i : Nat) : k109 i < 256 := ktab_lt K10 K9 (by decide) (by decide) i
theorem k131_lt (i : Nat) : k131 i < 256 := ktab_lt K12 K11 (by decide) (by decide) i
theorem k153_lt (i : Nat) : k153 i < 256 := ktab_lt K14 K13 (by decide) (by decide) i
theorem k175_lt (i : Nat) : k175 i < 256 := ktab_lt K16 K15 (by decide) (by decide) i

theorem assemble4_lt {a b c d : Nat} (ha : a < 256) (hb : b < 256) (hc : c < 256)
    (hd : d < 256) : a <<< 24 ||| b <<< 16 ||| c <<< 8 ||| d < 2 ^ 32 := by
  have h1 : a <<< 24 < 2 ^ 32 := by rw [Nat.shiftLeft_eq]; norm_num; omega
  have h2 : b <<< 16 < 2 ^ 32 := by rw [Nat.shiftLeft_eq]; norm_num; omega
  have h3 : c <<< 8 < 2 ^ 32 := by rw [Nat.shiftLeft_eq]; norm_num; omega
  have h4 : d < 2 ^ 32 := by omega
  exact Nat.or_lt_two_pow (Nat.or_lt_two_pow (Nat.or_lt_two_pow h1 h2) h3) h4

theorem rotl11_lt (y : Nat) (hy : y < 2 ^ 64) : rotl11 y < 2 ^ 64 := by
  have h1 : (y <<< 11) % 2 ^ 64 < 2 ^ 64 := Nat.mod_lt _ (by norm_num)
  have h2 : y >>> 53 < 2 ^ 64 := by
    rw [shr_eq_div]
    exact Nat.lt_of_le_of_lt (Nat.div_le_self _ _) hy
  exact Nat.or_lt_two_pow h1 h2

theorem f_lt (x : Nat) : f x < 2 ^ 64 := by
  apply rotl11_lt
  have hhi : (k87 ((x >>> 32 >>> 24) &&& 255)) <<< 24 |||
      (k65 ((x >>> 32 >>> 16) &&& 255)) <<< 16 |||
      (k43 ((x >>> 32 >>> 8) &&& 255)) <<< 8 |||
      (k21 ((x >>> 32) &&& 255)) < 2 ^ 32 :=
    assemble4_lt (k87_lt _) (k65_lt _) (k43_lt _) (k21_lt _)
  have h1 : ((k87 ((x >>> 32 >>> 24) &&& 255)) <<< 24 |||
      (k65 ((x >>> 32 >>> 16) &&& 255)) <<< 16 |||
      (k43 ((x >>> 32 >>> 8) &&& 255)) <<< 8 |||
      (k21 ((x >>> 32) &&& 255))) <<< 32 < 2 ^ 64 := by
    rw [Nat.shiftLeft_eq]
    have : (2 : Nat) ^ 64 = 2 ^ 32 * 2 ^ 32 := by norm_num
    rw [this]
    exact Nat.mul_lt_mul_of_lt_of_le hhi (by norm_num) (by norm_num)
  have h2 : ((k175 (((x &&& 0xffffffff) >>> 24) &&& 255)) <<< 24 |||
      (k153 (((x &&& 0xffffffff) >>> 16) &&& 255)) <<< 16 |||
      (k131 (((x &&& 0xffffffff) >>> 8) &&& 255)) <<< 8 |||
      (k109 ((x &&& 0xffffffff) &&& 255))) &&& 0xffffffff < 2 ^ 64 := by
    have := Nat.and_lt_two_pow ((k175 (((x &&& 0xffffffff) >>> 24) &&& 255)) <<< 24 |||
      (k153 (((x &&& 0xffffffff) >>> 16) &&& 255)) <<< 16 |||
      (k131 (((x &&& 0xffffffff) >>> 8) &&& 255)) <<< 8 |||
      (k109 ((x &&& 0xffffffff) &&& 255)))
      (y := 0xffffffff) (n := 64) (by norm_num)
    exact this
  exact Nat.or_lt_two_pow h1 h2

theorem encStep_lt (key : List Nat) (r : Nat) (ab : Nat × Nat)
    (h1 : ab.1 < 2 ^ 64) (h2 : ab.2 < 2 ^ 64) :
    (encStep key r ab).1 < 2 ^ 64 ∧ (encStep key r ab).2 < 2 ^ 64 :=
  ⟨Nat.xor_lt_two_pow h1 (f_lt _), Nat.xor_lt_two_pow h2 (f_lt _)⟩

theorem decStep_lt (key : List Nat) (j : Nat) (ab : Nat × Nat)
    (h1 : ab.1 < 2 ^ 64) (h2 : ab.2 < 2 ^ 64) :
    (decStep key j ab).1 < 2 ^ 64 ∧ (decStep key j ab).2 < 2 ^ 64 :=
  ⟨Nat.xor_lt_two_pow h1 (f_lt _), Nat.xor_lt_two_pow h2 (f_lt _)⟩

theorem foldl_preserve {α β : Type} (P : β → Prop) (g : β → α → β)
    (h : ∀ b a, P b → P (g b a)) : ∀ (l : List α) (b : β), P b → P (l.foldl g b) := by
  intro l
  induction l with
  | nil => intro b hb; simpa using hb
  | cons a t ih => intro b hb; exact ih (g b a) (h b a hb)

theorem gostcrypt_lt (input : Nat × Nat) (key : List Nat)
    (h1 : input.1 < 2 ^ 64) (h2 : input.2 < 2 ^ 64) :
    (gostcrypt input key).1 < 2 ^ 64 ∧ (gostcrypt input key).2 < 2 ^ 64 := by
  have := foldl_preserve (fun ab : Nat × Nat => ab.1 < 2 ^ 64 ∧ ab.2 < 2 ^ 64)
    (fun s r => encStep key r s)
    (fun b a hb => encStep_lt key a b hb.1 hb.2) (List.range 32) input ⟨h1, h2⟩
  exact ⟨this.2, this.1⟩

theorem gostdecrypt_lt (input : Nat × Nat) (key : List Nat)
    (h1 : input.1 < 2 ^ 64) (h2 : input.2 < 2 ^ 64) :
    (gostdecrypt input key).1 < 2 ^ 64 ∧ (gostdecrypt input key).2 < 2 ^ 64 := by
  have := foldl_preserve (fun ab : Nat × Nat => ab.1 < 2 ^ 64 ∧ ab.2 < 2 ^ 64)
    (fun s j => decStep key j s)
    (fun b a hb => decStep_lt key a b hb.1 hb.2) (List.range 32) input ⟨h1, h2⟩
  exact ⟨this.2, this.1⟩

/- ===================== theorems: block round-trip ===================== -/

theorem beWord_lt8 (l : List Nat) (h8 : l.length = 8)
    (hb : ∀ x ∈ l, x < 256) : beWord l < 2 ^ 64 := by
  match l, h8 with
  | [b0, b1, b2, b3, b4, b5, b6, b7], _ =>
    have h0 : b0 < 256 := hb _ (by simp)
    have h1 : b1 < 256 := hb _ (by simp)
    have h2 : b2 < 256 := hb _ (by simp)
    have h3 : b3 < 256 := hb _ (by simp)
    have h4 : b4 < 256 := hb _ (by simp)
    have h5 : b5 < 256 := hb _ (by simp)
    have h6 : b6 < 256 := hb _ (by simp)
    have h7 : b7 < 256 := hb _ (by simp)
    simp only [beWord, List.foldl_cons, List.foldl_nil]
    simp only [shl8_or _ _ h0, shl8_or _ _ h1, shl8_or _ _ h2, shl8_or _ _ h3,
      shl8_or _ _ h4, shl8_or _ _ h5, shl8_or _ _ h6, shl8_or _ _ h7]
    norm_num
    omega

theorem be_words_to_bytes_length (w : Nat × Nat) : (be_words_to_bytes w).length = 16 := by
  simp [be_words_to_bytes, wordBytes_length]

theorem be_words_to_bytes_lt (w : Nat × Nat) : ∀ x ∈ be_words_to_bytes w, x < 256 := by
  intro x hx
  rcases List.mem_append.mp hx with h | h
  · exact wordBytes_lt _ x h
  · exact wordBytes_lt _ x h

theorem encryptBlockBytes_length (key blk : List Nat) :
    (encryptBlockBytes key blk).length = 16 := be_words_to_bytes_length _

theorem encryptBlockBytes_lt (key blk : List Nat) :
    ∀ x ∈ encryptBlockBytes key blk, x < 256 := be_words_to_bytes_lt _

/-- Parsing back the serialized pair of 64-bit halves gives the pair again. -/
theorem be_bytes_to_words_be_words_to_bytes (w : Nat × Nat)
    (h1 : w.1 < 2 ^ 64) (h2 : w.2 < 2 ^ 64) :
    be_bytes_to_words (be_words_to_bytes w) = w := by
  simp only [be_bytes_to_words, be_words_to_bytes]
  rw [List.take_left' (wordBytes_length _), List.drop_left' (wordBytes_length _),
    List.take_of_length_le (by rw [wordBytes_length]),
    beWord_wordBytes _ h1, beWord_wordBytes _ h2]

/-- Serializing the parsed halves of a well-formed 16-byte block gives the block. -/
theorem be_words_to_bytes_be_bytes_to_words (blk : List Nat) (h16 : blk.length = 16)
    (hb : ∀ x ∈ blk, x < 256) :
    be_words_to_bytes (be_bytes_to_words blk) = blk := by
  simp only [be_bytes_to_words, be_words_to_bytes]
  have htk : (blk.take 8).length = 8 := by simp [h16]
  have hdt : ((blk.drop 8).take 8).length = 8 := by simp [h16]
  rw [wordBytes_beWord _ htk (fun x hx => hb x (List.mem_of_mem_take hx)),
    wordBytes_beWord _ hdt
      (fun x hx => hb x (List.mem_of_mem_drop (List.mem_of_mem_take hx)))]
  have hd : (blk.drop 8).take 8 = blk.drop 8 := List.take_of_length_le (by simp [h16])
  rw [hd, List.take_append_drop]

/-- Claim C1 at byte level: decrypting an encrypted 16-byte block restores it. -/
theorem decryptBlockBytes_encryptBlockBytes (key blk : List Nat)
    (h16 : blk.length = 16) (hb : ∀ x ∈ blk, x < 256) :
    decryptBlockBytes key (encryptBlockBytes key blk) = blk := by
  simp only [decryptBlockBytes, encryptBlockBytes]
  have hw1 : (be_bytes_to_words blk).1 < 2 ^ 64 :=
    beWord_lt8 _ (by simp [h16]) (fun x hx => hb x (List.mem_of_mem_take hx))
  have hw2 : (be_bytes_to_words blk).2 < 2 ^ 64 :=
    beWord_lt8 _ (by simp [h16])
      (fun x hx => hb x (List.mem_of_mem_drop (List.mem_of_mem_take hx)))
  have hc := gostcrypt_lt (be_bytes_to_words blk) key hw1 hw2
  rw [be_bytes_to_words_be_words_to_bytes _ hc.1 hc.2,
    gostdecrypt_gostcrypt_inverse, be_words_to_bytes_be_bytes_to_words blk h16 hb]

/- ===================== theorems: MD2II cursor (C5) ===================== -/

theorem absorbByte_x2 (s : MDState) (b : Nat) : (absorbByte s b).x2 = s.x2 + 1 := rfl

theorem compress_x2 (s : MDState) : (compress s).x2 = 0 := rfl

/-- A `hashing` run whose input exactly fills the block (cursor + length =
512) ends with the cursor reset to 0 and exactly one compression. -/
theorem hashingAux_boundary :
    ∀ (t : List Nat) (s : MDState), s.x2 + t.length = 512 →
      (hashingAux s t).1.x2 = 0 ∧ (hashingAux s t).2 = 1 := by
  intro t
  induction t with
  | nil =>
    intro s hs
    have h512 : s.x2 = 512 := by simpa using hs
    simp [hashingAux, h512, compress_x2]
  | cons b rest ih =>
    intro s hs
    have hne : ¬ s.x2 = 512 := by
      simp only [List.length_cons] at hs
      omega
    have hstep : (absorbByte s b).x2 + rest.length = 512 := by
      rw [absorbByte_x2]
      simp only [List.length_cons] at hs
      omega
    have hr := ih (absorbByte s b) hstep
    simp only [hashingAux, if_neg hne]
    exact ⟨hr.1, by rw [hr.2]⟩

/-- The absorb cursor stays below 512 after any `hashing` run (the compression
fires inside `hashing` as soon as the cursor reaches 512). -/
theorem hashingAux_x2_lt :
    ∀ (t : List Nat) (s : MDState), s.x2 ≤ 512 → (hashingAux s t).1.x2 < 512 := by
  intro t
  induction t with
  | nil =>
    intro s hs
    by_cases h512 : s.x2 = 512
    · simp [hashingAux, h512, compress_x2]
    · simp only [hashingAux, if_neg h512]
      omega
  | cons b rest ih =>
    intro s hs
    by_cases h512 : s.x2 = 512
    · simp only [hashingAux, if_pos h512]
      exact ih _ (by rw [absorbByte_x2, compress_x2]; omega)
    · simp only [hashingAux, if_neg h512]
      exact ih _ (by rw [absorbByte_x2]; omega)

theorem hashing_x2_lt (s : MDState) (t : List Nat) (h : s.x2 < 512) :
    (hashing s t).x2 < 512 := by
  cases t with
  | nil => simpa [hashing] using h
  | cons b rest => exact hashingAux_x2_lt _ _ (by omega)

/-- States reachable by absorbing any sequence of inputs from the initial
MD2II state. -/
inductive ReachableMD : MDState → Prop where
  | init : ReachableMD initMDState
  | step (s : MDState) (t : List Nat) : ReachableMD s → ReachableMD (hashing s t)

theorem initMDState_x2 : initMDState.x2 = 0 := rfl

theorem reachable_x2_lt (s : MDState) (h : ReachableMD s) : s.x2 < 512 := by
  induction h with
  | init => rw [initMDState_x2]; omega
  | step s t _ ih => exact hashing_x2_lt s t ih

theorem hashing_ne_nil (s : MDState) (t : List Nat) (h : t ≠ []) :
    hashing s t = (hashingAux s t).1 := by
  cases t with
  | nil => exact absurd rfl h
  | cons b rest => rfl

theorem hashingCompressions_ne_nil (s : MDState) (t : List Nat) (h : t ≠ []) :
    hashingCompressions s t = (hashingAux s t).2 := by
  cases t with
  | nil => exact absurd rfl h
  | cons b rest => rfl

/-- Claim C5, counterexample: already at the initial state, step 1 of the
finalize (absorbing `n = 512 - x2` copies of the byte `n as u8`) leaves the
cursor at 0, not at 512 — the padding run itself reaches the block boundary
and `hashing` immediately compresses. -/
theorem c5_finalize_cursor_counterexample :
    (hashing initMDState (List.replicate (512 - initMDState.x2)
        ((512 - initMDState.x2) % 256))).x2 = 0 ∧
    ¬ (hashing initMDState (List.replicate (512 - initMDState.x2)
        ((512 - initMDState.x2) % 256))).x2 = 512 := by
  have hb := hashingAux_boundary
    (List.replicate (512 - initMDState.x2) ((512 - initMDState.x2) % 256))
    initMDState (by rw [List.length_replicate, initMDState_x2])
  rw [hashing_ne_nil _ _ (by rw [ne_eq, List.replicate_eq_nil, initMDState_x2]; omega)]
  exact ⟨hb.1, by rw [hb.1]; omega⟩

/-- Claim C5 as amended: for every reachable hash state, step 1 of the
finalize absorbs `n = 512 - x2 ≥ 1` pad bytes, reaches the boundary and runs
exactly one compression, leaving `x2 = 0` (not 512); step 2 then absorbs the
512-byte snapshot of `h2` and runs exactly one further compression, again
leaving `x2 = 0`. -/
theorem c5_finalize_two_compressions (s : MDState) (hs : ReachableMD s) :
    (hashing s (List.replicate (512 - s.x2) ((512 - s.x2) % 256))).x2 = 0 ∧
    hashingCompressions s (List.replicate (512 - s.x2) ((512 - s.x2) % 256)) = 1 ∧
    hashingCompressions
      (hashing s (List.replicate (512 - s.x2) ((512 - s.x2) % 256)))
      ((List.range 512).map (fun i =>
        (hashing s (List.replicate (512 - s.x2) ((512 - s.x2) % 256))).h2.getD i 0)) = 1 ∧
    (hashing
      (hashing s (List.replicate (512 - s.x2) ((512 - s.x2) % 256)))
      ((List.range 512).map (fun i =>
        (hashing s (List.replicate (512 - s.x2) ((512 - s.x2) % 256))).h2.getD i 0))).x2 = 0 := by
  have hlt := reachable_x2_lt s hs
  have hnn : List.replicate (512 - s.x2) ((512 - s.x2) % 256) ≠ [] := by
    simp only [ne_eq, List.replicate_eq_nil]
    omega
  have hb1 := hashingAux_boundary
    (List.replicate (512 - s.x2) ((512 - s.x2) % 256)) s (by simp; omega)
  rw [hashing_ne_nil _ _ hnn, hashingCompressions_ne_nil _ _ hnn]
  refine ⟨hb1.1, hb1.2, ?_, ?_⟩
  · rw [hashingCompressions_ne_nil _ _ (by simp)]
    exact (hashingAux_boundary _ _ (by simp [hb1.1])).2
  · rw [hashing_ne_nil _ _ (by simp)]
    exact (hashingAux_boundary _ _ (by simp [hb1.1])).1

/- ===================== theorems: key schedule (C6) ===================== -/

theorem fold8_be (v0 b0 b1 b2 b3 b4 b5 b6 b7 : Nat)
    (h0 : b0 < 256) (h1 : b1 < 256) (h2 : b2 < 256) (h3 : b3 < 256)
    (h4 : b4 < 256) (h5 : b5 < 256) (h6 : b6 < 256) (h7 : b7 < 256) :
    (((((((v0 * 2 ^ 8 % 2 ^ 64 + b0) * 2 ^ 8 % 2 ^ 64 + b1) * 2 ^ 8 % 2 ^ 64 + b2) *
          2 ^ 8 % 2 ^ 64 + b3) * 2 ^ 8 % 2 ^ 64 + b4) * 2 ^ 8 % 2 ^ 64 + b5) *
          2 ^ 8 % 2 ^ 64 + b6) * 2 ^ 8 % 2 ^ 64 + b7 =
      b0 * 256 ^ 7 + b1 * 256 ^ 6 + b2 * 256 ^ 5 + b3 * 256 ^ 4 + b4 * 256 ^ 3 +
      b5 * 256 ^ 2 + b6 * 256 + b7 := by
  omega

theorem range_map_getD (n : Nat) (g : Nat → Nat) (i : Nat) (h : i < n) :
    ((List.range n).map g).getD i 0 = g i := by
  rw [List.getD_eq_getElem?_getD, List.getElem?_map, List.getElem?_range h]
  rfl

/-- Claim C6: both `create_keys` versions produce, for each `i < 64`, the
big-endian 64-bit integer of digest bytes `8i .. 8i+7`; the version of
`gost2-128.rs` does so regardless of the initial contents of the caller's
`key` array, which the eight wrapping shifts push out entirely. -/
theorem create_keys_be (h4 : List Nat) (hb : ∀ x ∈ h4, x < 256) (i : Nat)
    (hi : i < 64) (key0 : List Nat) :
    (create_keys h4).getD i 0 = spec_be_u64_subkey h4 i ∧
    (create_keys_into key0 h4).getD i 0 = spec_be_u64_subkey h4 i := by
  have hg : ∀ n, h4.getD n 0 < 256 := getD_lt_of h4 256 (by omega) hb
  have hmask : ∀ n, h4.getD n 0 &&& 255 = h4.getD n 0 := fun n => by
    rw [and255_eq_mod]
    exact Nat.mod_eq_of_lt (hg n)
  have hr : List.range 8 = [0, 1, 2, 3, 4, 5, 6, 7] := by decide
  unfold create_keys create_keys_into spec_be_u64_subkey
  rw [range_map_getD _ _ _ hi, range_map_getD _ _ _ hi, hr]
  simp only [List.map_cons, List.map_nil, List.foldl_cons, List.foldl_nil,
    Nat.shiftLeft_eq, hmask]
  constructor
  · exact fold8_be 0 _ _ _ _ _ _ _ _ (hg _) (hg _) (hg _) (hg _) (hg _) (hg _)
      (hg _) (hg _)
  · exact fold8_be (key0.getD i 0) _ _ _ _ _ _ _ _ (hg _) (hg _) (hg _) (hg _)
      (hg _) (hg _) (hg _) (hg _)

/-- Witness for C6 at a concrete digest, subkey index and initial array. -/
theorem create_keys_be_witness :
    (create_keys [1, 2, 3]).getD 0 0 = spec_be_u64_subkey [1, 2, 3] 0 ∧
    (create_keys_into [7, 9] [1, 2, 3]).getD 0 0 = spec_be_u64_subkey [1, 2, 3] 0 :=
  create_keys_be [1, 2, 3] (by decide) 0 (by decide) [7, 9]

/- ===================== theorems: ct_memcmp (C10) ===================== -/

theorem lor_eq_zero_iff (a b : Nat) : a ||| b = 0 ↔ a = 0 ∧ b = 0 := by
  constructor
  · intro h
    have hbit : ∀ i, a.testBit i = false ∧ b.testBit i = false := by
      intro i
      have hc := congrArg (fun x => x.testBit i) h
      simpa [Nat.testBit_or] using hc
    exact ⟨Nat.eq_of_testBit_eq (fun i => by simp [(hbit i).1]),
           Nat.eq_of_testBit_eq (fun i => by simp [(hbit i).2])⟩
  · rintro ⟨rfl, rfl⟩; rfl

theorem foldl_or_eq_zero (g : Nat → Nat) (l : List Nat) :
    ∀ r0, (l.foldl (fun r i => r ||| g i) r0 = 0 ↔ r0 = 0 ∧ ∀ i ∈ l, g i = 0) := by
  induction l with
  | nil => intro r0; simp
  | cons a t ih =>
    intro r0
    rw [List.foldl_cons, ih, lor_eq_zero_iff]
    constructor
    · rintro ⟨⟨h1, h2⟩, h3⟩
      exact ⟨h1, fun i hi => by
        rcases List.mem_cons.mp hi with hh | hh
        · rw [hh]; exact h2
        · exact h3 i hh⟩
    · rintro ⟨h1, h2⟩
      exact ⟨⟨h1, h2 a (by simp)⟩, fun i hi => h2 i (by simp [hi])⟩

theorem getD_eq_getElem_of_lt (l : List Nat) (i : Nat) (h : i < l.length) :
    l.getD i 0 = l[i] := by
  rw [List.getD_eq_getElem?_getD, List.getElem?_eq_getElem h]
  rfl

/-- For equal-length buffers, `ct_memcmp a b = 0` exactly when `a = b`. -/
theorem ct_memcmp_eq_zero_iff (a b : List Nat) (hlen : a.length = b.length) :
    ct_memcmp a b = 0 ↔ a = b := by
  unfold ct_memcmp
  rw [lor_eq_zero_iff, foldl_or_eq_zero]
  constructor
  · rintro ⟨⟨-, hall⟩, -⟩
    refine List.ext_getElem hlen (fun i h1 h2 => ?_)
    have hi : i ∈ List.range (min a.length b.length) := by
      rw [List.mem_range]
      omega
    have hx := Nat.xor_eq_zero.mp (hall i hi)
    rw [getD_eq_getElem_of_lt a i h1, getD_eq_getElem_of_lt b i h2] at hx
    exact hx
  · rintro rfl
    exact ⟨⟨rfl, fun i _ => by simp⟩, by simp⟩

theorem store_be128_length (x : Be128) : (store_be128 x).length = 16 := by
  simp [store_be128, wordBytes_length]

theorem xorBytes_length (a b : List Nat) :
    (xorBytes a b).length = min a.length b.length := by
  simp [xorBytes]

/-- Claim C10: `ct_memcmp` on equal-length buffers returns 0 exactly for
byte-for-byte equal buffers; consequently, on any file long enough to decrypt,
the authentication flag of `decrypt_file` is the `ct_memcmp` comparison of the
stored 16-byte tag with a recomputed 16-byte tag, hence `true` exactly when
the two tags are equal. -/
theorem ct_memcmp_correct :
    (∀ a b : List Nat, a.length = b.length → (ct_memcmp a b = 0 ↔ a = b)) ∧
    (∀ key file : List Nat, 32 ≤ file.length →
      ∃ pt tcalc : List Nat, tcalc.length = 16 ∧
        (file.drop (file.length - 16)).length = 16 ∧
        decrypt_file key file =
          some (pt, ct_memcmp (file.drop (file.length - 16)) tcalc == 0) ∧
        ((ct_memcmp (file.drop (file.length - 16)) tcalc == 0) = true ↔
          file.drop (file.length - 16) = tcalc)) := by
  refine ⟨ct_memcmp_eq_zero_iff, ?_⟩
  intro key file h32
  have htag : (file.drop (file.length - 16)).length = 16 := by
    rw [List.length_drop]
    omega
  have htc : (gcm_recomputed_tag key file).length = 16 := by
    rw [gcm_recomputed_tag, xorBytes_length, encryptBlockBytes_length,
      store_be128_length]
    omega
  refine ⟨gcm_plaintext key file, gcm_recomputed_tag key file, htc, htag, ?_, ?_⟩
  · rw [decrypt_file, if_neg (by omega), if_neg (by omega)]
    rfl
  · rw [beq_iff_eq]
    exact ct_memcmp_eq_zero_iff _ _ (by rw [htag, htc])

/-- Witness for C10: the equal-length equivalence at concrete buffers, and the
flag characterization at a concrete 32-byte file. -/
theorem ct_memcmp_correct_witness :
    (ct_memcmp [1, 2] [1, 3] = 0 ↔ [1, 2] = [1, 3]) ∧
    (∃ pt tcalc : List Nat, tcalc.length = 16 ∧
      ((List.replicate 32 0).drop ((List.replicate 32 0).length - 16)).length = 16 ∧
      decrypt_file [] (List.replicate 32 0) =
        some (pt, ct_memcmp ((List.replicate 32 0).drop
          ((List.replicate 32 0).length - 16)) tcalc == 0) ∧
      ((ct_memcmp ((List.replicate 32 0).drop
          ((List.replicate 32 0).length - 16)) tcalc == 0) = true ↔
        (List.replicate 32 0).drop ((List.replicate 32 0).length - 16) = tcalc)) :=
  ⟨ct_memcmp_correct.1 [1, 2] [1, 3] (by decide),
   ct_memcmp_correct.2 [] (List.replicate 32 0) (by decide)⟩

/- ===================== theorems: CBC decrypt checks (C8) ===================== -/

/-- Claim C8: CBC decryption errors out on files shorter than 48 bytes; errors
with the invalid-ciphertext-size error when the region between IV and hash is
empty or not a multiple of 16; and reaches the stream-decryption body exactly
when both checks pass. -/
theorem cbc_decrypt_stream_checks :
    (∀ key file : List Nat, file.length < 48 →
      cbc_decrypt_stream key file = .error .tooSmall) ∧
    (∀ key file : List Nat, 48 ≤ file.length →
      (file.length - 48 = 0 ∨ (file.length - 48) % 16 ≠ 0) →
      cbc_decrypt_stream key file = .error .badSize) ∧
    (∀ key file : List Nat, 48 ≤ file.length → file.length - 48 ≠ 0 →
      (file.length - 48) % 16 = 0 →
      cbc_decrypt_stream key file = cbc_decrypt_body key file) := by
  refine ⟨?_, ?_, ?_⟩
  · intro key file h
    rw [cbc_decrypt_stream, if_pos (by omega)]
  · intro key file h hbad
    rw [cbc_decrypt_stream, if_neg (by omega), if_pos hbad]
  · intro key file h hne hmod
    rw [cbc_decrypt_stream, if_neg (by omega), if_neg (by
      push_neg
      exact ⟨hne, hmod⟩)]

/-- Witness for C8 at concrete files of each shape. -/
theorem cbc_decrypt_stream_checks_witness :
    cbc_decrypt_stream [] (List.replicate 10 0) = .error .tooSmall ∧
    cbc_decrypt_stream [] (List.replicate 48 0) = .error .badSize ∧
    cbc_decrypt_stream [] (List.replicate 50 0) = .error .badSize ∧
    cbc_decrypt_stream [] (List.replicate 64 0) =
      cbc_decrypt_body [] (List.replicate 64 0) :=
  ⟨cbc_decrypt_stream_checks.1 [] _ (by decide),
   cbc_decrypt_stream_checks.2.1 [] _ (by decide) (by decide),
   cbc_decrypt_stream_checks.2.1 [] _ (by decide) (by decide),
   cbc_decrypt_stream_checks.2.2 [] _ (by decide) (by decide) (by decide)⟩

/-- Witness for the amended C5 at the initial (reachable) state. -/
theorem c5_finalize_two_compressions_witness :
    (hashing initMDState (List.replicate (512 - initMDState.x2)
      ((512 - initMDState.x2) % 256))).x2 = 0 ∧
    hashingCompressions initMDState (List.replicate (512 - initMDState.x2)
      ((512 - initMDState.x2) % 256)) = 1 ∧
    hashingCompressions
      (hashing initMDState (List.replicate (512 - initMDState.x2)
        ((512 - initMDState.x2) % 256)))
      ((List.range 512).map (fun i =>
        (hashing initMDState (List.replicate (512 - initMDState.x2)
          ((512 - initMDState.x2) % 256))).h2.getD i 0)) = 1 ∧
    (hashing
      (hashing initMDState (List.replicate (512 - initMDState.x2)
        ((512 - initMDState.x2) % 256)))
      ((List.range 512).map (fun i =>
        (hashing initMDState (List.replicate (512 - initMDState.x2)
          ((512 - initMDState.x2) % 256))).h2.getD i 0))).x2 = 0 :=
  c5_finalize_two_compressions initMDState ReachableMD.init

/- ===================== theorems: 16-byte chunking ===================== -/

theorem chunks16Fuel_congr :
    ∀ (f1 f2 : Nat) (l : List Nat), l.length ≤ f1 → l.length ≤ f2 →
      chunks16Fuel f1 l = chunks16Fuel f2 l := by
  intro f1
  induction f1 with
  | zero =>
    intro f2 l h1 _
    have hl : l = [] := List.eq_nil_of_length_eq_zero (by omega)
    subst hl
    cases f2 with
    | zero => rfl
    | succ g => simp [chunks16Fuel]
  | succ m ih =>
    intro f2 l h1 h2
    cases f2 with
    | zero =>
      have hl : l = [] := List.eq_nil_of_length_eq_zero (by omega)
      subst hl
      simp [chunks16Fuel]
    | succ g =>
      by_cases hl : l = []
      · subst hl; simp [chunks16Fuel]
      · have hlen : 1 ≤ l.length := by
          cases l with
          | nil => exact absurd rfl hl
          | cons a t => simp
        simp only [chunks16Fuel, if_neg hl]
        rw [ih g (l.drop 16) (by simp; omega) (by simp; omega)]

/-- The defining recursion of `toBlocks16`. -/
theorem toBlocks16_eq (l : List Nat) :
    toBlocks16 l = if l = [] then [] else l.take 16 :: toBlocks16 (l.drop 16) := by
  by_cases hl : l = []
  · subst hl; simp [toBlocks16, chunks16Fuel]
  · rw [if_neg hl]
    have hlen : 1 ≤ l.length := by
      cases l with
      | nil => exact absurd rfl hl
      | cons a t => simp
    unfold toBlocks16
    rcases hn : l.length with _ | n
    · omega
    · simp only [chunks16Fuel, if_neg hl]
      rw [chunks16Fuel_congr n (l.drop 16).length (l.drop 16) (by simp; omega)
        (Nat.le_refl _)]

theorem toBlocks16_flatten_aux :
    ∀ (n : Nat) (l : List Nat), l.length ≤ n → (toBlocks16 l).flatten = l := by
  intro n
  induction n with
  | zero =>
    intro l h
    have hl : l = [] := List.eq_nil_of_length_eq_zero (by omega)
    subst hl
    simp [toBlocks16_eq]
  | succ m ih =>
    intro l h
    rw [toBlocks16_eq]
    by_cases hl : l = []
    · simp [hl]
    · have hlen : 1 ≤ l.length := by
        cases l with
        | nil => exact absurd rfl hl
        | cons a t => simp
      rw [if_neg hl, List.flatten_cons, ih (l.drop 16) (by simp; omega),
        List.take_append_drop]

/-- Reassembling the blocks gives back the byte string. -/
theorem toBlocks16_flatten (l : List Nat) : (toBlocks16 l).flatten = l :=
  toBlocks16_flatten_aux l.length l (Nat.le_refl _)

/-- Chunking the flattening of full 16-byte blocks gives the blocks back. -/
theorem toBlocks16_of_blocks :
    ∀ B : List (List Nat), (∀ b ∈ B, b.length = 16) → toBlocks16 B.flatten = B := by
  intro B
  induction B with
  | nil => intro _; simp [toBlocks16_eq]
  | cons b rest ih =>
    intro hb
    have hb16 : b.length = 16 := hb b (by simp)
    have hne : b ++ rest.flatten ≠ [] := by
      intro hc
      have := congrArg List.length hc
      simp [hb16] at this
    rw [List.flatten_cons, toBlocks16_eq, if_neg hne, List.take_left' hb16,
      List.drop_left' hb16, ih (fun x hx => hb x (by simp [hx]))]

theorem toBlocks16_mem_aux :
    ∀ (n : Nat) (l : List Nat), l.length ≤ n → l.length % 16 = 0 →
      ∀ b ∈ toBlocks16 l, b.length = 16 ∧ ∀ x ∈ b, x ∈ l := by
  intro n
  induction n with
  | zero =>
    intro l h _
    have hl : l = [] := List.eq_nil_of_length_eq_zero (by omega)
    subst hl
    simp [toBlocks16_eq]
  | succ m ih =>
    intro l h hmod b hb
    rw [toBlocks16_eq] at hb
    by_cases hl : l = []
    · simp [hl] at hb
    · have hlen : 1 ≤ l.length := by
        cases l with
        | nil => exact absurd rfl hl
        | cons a t => simp
      have h16 : 16 ≤ l.length := by omega
      rw [if_neg hl] at hb
      rcases List.mem_cons.mp hb with hh | hh
      · subst hh
        exact ⟨by simp [List.length_take]; omega,
          fun x hx => List.mem_of_mem_take hx⟩
      · have := ih (l.drop 16) (by simp; omega) (by simp; omega) b hh
        exact ⟨this.1, fun x hx => List.mem_of_mem_drop (this.2 x hx)⟩

theorem flatten_length_of_blocks :
    ∀ B : List (List Nat), (∀ b ∈ B, b.length = 16) →
      B.flatten.length = 16 * B.length := by
  intro B
  induction B with
  | nil => intro _; simp
  | cons b rest ih =>
    intro hb
    rw [List.flatten_cons, List.length_append, hb b (by simp),
      ih (fun x hx => hb x (by simp [hx])), List.length_cons]
    ring

/- ===================== theorems: bytewise XOR ===================== -/

theorem xorBytes_xorBytes :
    ∀ (p q : List Nat), p.length = q.length → xorBytes (xorBytes p q) q = p := by
  intro p
  induction p with
  | nil => intro q _; simp [xorBytes]
  | cons a t ih =>
    intro q hq
    cases q with
    | nil => simp at hq
    | cons b u =>
      simp only [xorBytes, List.zipWith_cons_cons]
      rw [show (a ^^^ b) ^^^ b = a from xor_cancel_r a b]
      have := ih u (by simpa using hq)
      simp only [xorBytes] at this
      rw [this]

theorem xorBytes_lt :
    ∀ (p q : List Nat), (∀ x ∈ p, x < 256) → (∀ x ∈ q, x < 256) →
      ∀ x ∈ xorBytes p q, x < 256 := by
  intro p
  induction p with
  | nil => intro q _ _ x hx; simp [xorBytes] at hx
  | cons a t ih =>
    intro q hp hq x hx
    cases q with
    | nil => simp [xorBytes] at hx
    | cons b u =>
      simp only [xorBytes, List.zipWith_cons_cons, List.mem_cons] at hx
      rcases hx with hh | hh
      · subst hh
        exact Nat.xor_lt_two_pow (n := 8) (by simpa using hp a (by simp))
          (by simpa using hq b (by simp))
      · exact ih u (fun y hy => hp y (by simp [hy])) (fun y hy => hq y (by simp [hy]))
          x hh

/- ===================== theorems: CBC chaining ===================== -/

theorem cbc_encrypt_blocks_mem (key : List Nat) :
    ∀ (blocks : List (List Nat)) (prev : List Nat),
      ∀ c ∈ cbc_encrypt_blocks key prev blocks, c.length = 16 ∧ ∀ x ∈ c, x < 256 := by
  intro blocks
  induction blocks with
  | nil => intro prev c hc; simp [cbc_encrypt_blocks] at hc
  | cons p rest ih =>
    intro prev c hc
    simp only [cbc_encrypt_blocks, List.mem_cons] at hc
    rcases hc with hh | hh
    · subst hh
      exact ⟨encryptBlockBytes_length _ _, encryptBlockBytes_lt _ _⟩
    · exact ih _ c hh

theorem cbc_encrypt_blocks_count (key : List Nat) :
    ∀ (blocks : List (List Nat)) (prev : List Nat),
      (cbc_encrypt_blocks key prev blocks).length = blocks.length := by
  intro blocks
  induction blocks with
  | nil => intro prev; rfl
  | cons p rest ih => intro prev; simp [cbc_encrypt_blocks, ih]

/-- CBC decryption undoes CBC encryption block by block. -/
theorem cbc_decrypt_encrypt_blocks (key : List Nat) :
    ∀ (blocks : List (List Nat)) (prev : List Nat),
      prev.length = 16 → (∀ x ∈ prev, x < 256) →
      (∀ b ∈ blocks, b.length = 16 ∧ ∀ x ∈ b, x < 256) →
      cbc_decrypt_blocks key prev (cbc_encrypt_blocks key prev blocks) = blocks := by
  intro blocks
  induction blocks with
  | nil => intro prev _ _ _; rfl
  | cons p rest ih =>
    intro prev hp16 hpb hbl
    have hx16 : (xorBytes p prev).length = 16 := by
      rw [xorBytes_length, (hbl p (by simp)).1, hp16]
      omega
    have hxb : ∀ x ∈ xorBytes p prev, x < 256 :=
      xorBytes_lt p prev (hbl p (by simp)).2 hpb
    simp only [cbc_encrypt_blocks, cbc_decrypt_blocks]
    rw [decryptBlockBytes_encryptBlockBytes key _ hx16 hxb,
      xorBytes_xorBytes p prev (by rw [(hbl p (by simp)).1, hp16]),
      ih _ (encryptBlockBytes_length _ _) (encryptBlockBytes_lt _ _)
        (fun b hb => hbl b (by simp [hb]))]

/- ===================== theorems: PKCS#7 padding ===================== -/

theorem pkcs7_pad_length (msg : List Nat) :
    (pkcs7_pad msg).length = 16 * (msg.length / 16 + 1) := by
  have := Nat.div_add_mod msg.length 16
  have hlt : msg.length % 16 < 16 := Nat.mod_lt _ (by omega)
  simp only [pkcs7_pad, List.length_append, List.length_replicate]
  omega

theorem pkcs7_pad_lt (msg : List Nat) (hm : ∀ x ∈ msg, x < 256) :
    ∀ x ∈ pkcs7_pad msg, x < 256 := by
  intro x hx
  rcases List.mem_append.mp hx with hh | hh
  · exact hm x hh
  · have := (List.mem_replicate.mp hh).2
    omega

/-- Stripping the padding from `F ++ (pad bytes)` recovers `F` whenever `F` is
shorter than a block (the shape of the final padded block). -/
theorem pkcs7_unpad_pad_block (F : List Nat) (hF : F.length < 16) :
    pkcs7_unpad (F ++ List.replicate (16 - F.length) (16 - F.length)) = some F := by
  have hp1 : 1 ≤ 16 - F.length := by omega
  have hlen : (F ++ List.replicate (16 - F.length) (16 - F.length)).length = 16 := by
    simp only [List.length_append, List.length_replicate]
    omega
  have hlast : (F ++ List.replicate (16 - F.length) (16 - F.length)).getLastD 0 =
      16 - F.length := by
    have hrep : List.replicate (16 - F.length) (16 - F.length) =
        List.replicate (16 - F.length - 1) (16 - F.length) ++ [16 - F.length] := by
      rw [← List.replicate_succ']
      congr 1
      omega
    rw [hrep, ← List.append_assoc, List.getLastD_concat]
  have hall : (List.range ((F ++ List.replicate (16 - F.length)
      (16 - F.length)).getLastD 0)).all
      (fun i => (F ++ List.replicate (16 - F.length) (16 - F.length)).getD
        ((F ++ List.replicate (16 - F.length) (16 - F.length)).length - 1 - i) 0 ==
        (F ++ List.replicate (16 - F.length) (16 - F.length)).getLastD 0) = true := by
    rw [List.all_eq_true]
    intro i hi
    rw [hlast] at hi ⊢
    rw [List.mem_range] at hi
    rw [hlen, beq_iff_eq, List.getD_eq_getElem?_getD,
      List.getElem?_append_right (by omega),
      List.getElem?_replicate_of_lt (by omega)]
    rfl
  rw [pkcs7_unpad, if_neg (by rw [hlen]; omega), hlast, if_neg (by omega)]
  rw [hlast] at hall
  rw [if_pos hall, hlen, List.take_left' (by omega)]

/- ===================== theorems: SHA-256 shape ===================== -/

theorem sha256_length (msg : List Nat) : (sha256 msg).length = 32 := by
  have hr : List.range 8 = [0, 1, 2, 3, 4, 5, 6, 7] := by decide
  simp only [sha256, hr, List.map_cons, List.map_nil]
  simp

/- ===================== theorems: CBC round trip ===================== -/

/-- Structure of the padded plaintext: a multiple-of-16 prefix plus one final
16-byte block that ends in the padding. -/
theorem pkcs7_pad_split (msg : List Nat) :
    pkcs7_pad msg =
      msg.take (16 * (msg.length / 16)) ++
      (msg.drop (16 * (msg.length / 16)) ++
        List.replicate (16 - msg.length % 16) (16 - msg.length % 16)) := by
  rw [← List.append_assoc, List.take_append_drop]
  rfl

/-- `cbc_decrypt_body` on a well-formed `IV ++ (C ++ H)` file whose final
decrypted block carries valid padding. -/
theorem cbc_decrypt_body_ok (key iv ct hsh lastB stripped : List Nat)
    (hiv : iv.length = 16) (hh : hsh.length = 32)
    (hlast : (cbc_decrypt_blocks key iv (toBlocks16 ct)).getLast? = some lastB)
    (hunp : pkcs7_unpad lastB = some stripped) :
    cbc_decrypt_body key (iv ++ (ct ++ hsh)) =
      .ok ((cbc_decrypt_blocks key iv (toBlocks16 ct)).dropLast.flatten ++ stripped,
        sha256 ct == hsh) := by
  have hlen : (iv ++ (ct ++ hsh)).length = 16 + (ct.length + 32) := by
    simp [hiv, hh]
  have h1 : (iv ++ (ct ++ hsh)).take 16 = iv := List.take_left' hiv
  have h2 : (iv ++ (ct ++ hsh)).drop ((iv ++ (ct ++ hsh)).length - 32) = hsh := by
    rw [← List.append_assoc]
    rw [show ((iv ++ ct) ++ hsh).length - 32 = (iv ++ ct).length from by
      simp only [List.length_append, hiv, hh]
      omega]
    exact List.drop_left _ _
  have h3 : ((iv ++ (ct ++ hsh)).drop 16).take ((iv ++ (ct ++ hsh)).length - 48) = ct := by
    rw [List.drop_left' hiv, hlen]
    rw [show 16 + (ct.length + 32) - 48 = ct.length from by omega]
    exact List.take_left _ _
  rw [cbc_decrypt_body, h1, h2, h3, hlast, cbc_finalize, hunp, cbc_emit]

set_option maxHeartbeats 2000000 in
/-- General CBC round trip, for an arbitrary subkey list. -/
theorem cbc_roundtrip_aux (key iv msg : List Nat) (hiv : iv.length = 16)
    (hivb : ∀ x ∈ iv, x < 256) (hmb : ∀ x ∈ msg, x < 256) :
    cbc_decrypt_stream key (cbc_encrypt_stream key iv msg) = .ok (msg, true) := by
  have hdm := Nat.div_add_mod msg.length 16
  have hmlt : msg.length % 16 < 16 := Nat.mod_lt _ (by omega)
  -- the padded plaintext and its blocks
  have hPlen : (pkcs7_pad msg).length = 16 * (msg.length / 16 + 1) :=
    pkcs7_pad_length msg
  have hPb : ∀ x ∈ pkcs7_pad msg, x < 256 := pkcs7_pad_lt msg hmb
  have hblocks : ∀ b ∈ toBlocks16 (pkcs7_pad msg), b.length = 16 ∧ ∀ x ∈ b, x < 256 :=
    fun b hb =>
      have h := toBlocks16_mem_aux (pkcs7_pad msg).length _ (Nat.le_refl _)
        (by rw [hPlen]; omega) b hb
      ⟨h.1, fun x hx => hPb x (h.2 x hx)⟩
  have hcount : (toBlocks16 (pkcs7_pad msg)).length = msg.length / 16 + 1 := by
    have hf := flatten_length_of_blocks _ (fun b hb => (hblocks b hb).1)
    rw [toBlocks16_flatten, hPlen] at hf
    omega
  -- the ciphertext
  have hctmem := cbc_encrypt_blocks_mem key (toBlocks16 (pkcs7_pad msg)) iv
  have hctlen : (cbc_encrypt_blocks key iv (toBlocks16 (pkcs7_pad msg))).flatten.length
      = 16 * (msg.length / 16 + 1) := by
    rw [flatten_length_of_blocks _ (fun c hc => (hctmem c hc).1),
      cbc_encrypt_blocks_count, hcount]
  -- the file and its parse
  have hfile : cbc_encrypt_stream key iv msg =
      iv ++ ((cbc_encrypt_blocks key iv (toBlocks16 (pkcs7_pad msg))).flatten ++
        sha256 ((cbc_encrypt_blocks key iv (toBlocks16 (pkcs7_pad msg))).flatten)) := by
    simp only [cbc_encrypt_stream]
    rw [List.append_assoc]
  have hflen : (cbc_encrypt_stream key iv msg).length =
      16 + (16 * (msg.length / 16 + 1) + 32) := by
    rw [hfile]
    simp only [List.length_append, hiv, hctlen, sha256_length]
  rw [cbc_decrypt_stream, if_neg (by rw [hflen]; omega),
    if_neg (by rw [hflen]; push_neg; constructor <;> omega)]
  -- the decrypted blocks are the padded plaintext blocks
  have hdecblocks : cbc_decrypt_blocks key iv (toBlocks16
      ((cbc_encrypt_blocks key iv (toBlocks16 (pkcs7_pad msg))).flatten)) =
      toBlocks16 (pkcs7_pad msg) := by
    rw [toBlocks16_of_blocks _ (fun c hc => (hctmem c hc).1),
      cbc_decrypt_encrypt_blocks key _ iv hiv hivb hblocks]
  -- split the block list into the full prefix and the final padded block
  have hsplit : toBlocks16 (pkcs7_pad msg) =
      toBlocks16 (msg.take (16 * (msg.length / 16))) ++
      [msg.drop (16 * (msg.length / 16)) ++
        List.replicate (16 - msg.length % 16) (16 - msg.length % 16)] := by
    have htpre : ∀ b ∈ toBlocks16 (msg.take (16 * (msg.length / 16))),
        b.length = 16 := by
      intro b hb
      exact (toBlocks16_mem_aux (msg.take (16 * (msg.length / 16))).length _
        (Nat.le_refl _) (by simp [List.length_take]; omega) b hb).1
    have hall16 : ∀ b ∈ toBlocks16 (msg.take (16 * (msg.length / 16))) ++
        [msg.drop (16 * (msg.length / 16)) ++
          List.replicate (16 - msg.length % 16) (16 - msg.length % 16)],
        b.length = 16 := by
      intro b hb
      rcases List.mem_append.mp hb with hh | hh
      · exact htpre b hh
      · rw [List.mem_singleton.mp hh]
        simp only [List.length_append, List.length_drop, List.length_replicate]
        omega
    have := toBlocks16_of_blocks _ hall16
    rw [List.flatten_append, toBlocks16_flatten] at this
    rw [pkcs7_pad_split msg]
    simpa using this
  have hFlen : (msg.drop (16 * (msg.length / 16))).length = msg.length % 16 := by
    simp only [List.length_drop]
    omega
  have hunpad := pkcs7_unpad_pad_block (msg.drop (16 * (msg.length / 16)))
    (by rw [hFlen]; omega)
  rw [hFlen] at hunpad
  have hlastB : (cbc_decrypt_blocks key iv (toBlocks16
      ((cbc_encrypt_blocks key iv (toBlocks16 (pkcs7_pad msg))).flatten))).getLast? =
      some (msg.drop (16 * (msg.length / 16)) ++
        List.replicate (16 - msg.length % 16) (16 - msg.length % 16)) := by
    rw [hdecblocks, hsplit, List.getLast?_concat]
  rw [hfile, cbc_decrypt_body_ok key iv _ _ _ _ hiv (sha256_length _) hlastB hunpad]
  rw [hdecblocks, hsplit, List.dropLast_concat, toBlocks16_flatten,
    List.take_append_drop]
  simp

/-- Claim C3: for every byte string and password, CBC decryption of the CBC
encryption (under the password-derived subkeys, with the IV recorded in the
file) returns exactly the plaintext with authentication OK. -/
theorem cbc_round_trip_password (pw iv msg : List Nat) (hiv : iv.length = 16)
    (hivb : ∀ x ∈ iv, x < 256) (hmb : ∀ x ∈ msg, x < 256) :
    cbc_decrypt_stream (derive_key_from_password pw)
      (cbc_encrypt_stream (derive_key_from_password pw) iv msg) = .ok (msg, true) :=
  cbc_roundtrip_aux _ iv msg hiv hivb hmb

/-- Witness for C3 at a concrete password, IV and message. -/
theorem cbc_round_trip_password_witness :
    cbc_decrypt_stream (derive_key_from_password [112, 119])
      (cbc_encrypt_stream (derive_key_from_password [112, 119])
        (List.replicate 16 0) [1, 2, 3]) = .ok ([1, 2, 3], true) :=
  cbc_round_trip_password [112, 119] (List.replicate 16 0) [1, 2, 3]
    (by decide) (by decide) (by decide)

/-- Length of a CBC-encrypted file: IV, one block per 16 input bytes plus the
always-appended padding block, and the 32-byte hash. -/
theorem cbc_encrypt_stream_length (key iv msg : List Nat) (hiv : iv.length = 16) :
    (cbc_encrypt_stream key iv msg).length = 16 + 16 * (msg.length / 16 + 1) + 32 := by
  have hPlen := pkcs7_pad_length msg
  have hblocks16 : ∀ b ∈ toBlocks16 (pkcs7_pad msg), b.length = 16 := fun b hb =>
    (toBlocks16_mem_aux _ _ (Nat.le_refl _) (by rw [hPlen]; omega) b hb).1
  have hcount : (toBlocks16 (pkcs7_pad msg)).length = msg.length / 16 + 1 := by
    have hf := flatten_length_of_blocks _ hblocks16
    rw [toBlocks16_flatten, hPlen] at hf
    omega
  have hctlen : (cbc_encrypt_blocks key iv
      (toBlocks16 (pkcs7_pad msg))).flatten.length = 16 * (msg.length / 16 + 1) := by
    rw [flatten_length_of_blocks _
      (fun c hc => (cbc_encrypt_blocks_mem key _ iv c hc).1),
      cbc_encrypt_blocks_count, hcount]
  simp only [cbc_encrypt_stream, List.length_append, hiv, hctlen, sha256_length]

/-- Claim C7: padding is always applied (a full `0x10` block when the length
is a multiple of 16), the output file length is `16 + 16*(⌊L/16⌋+1) + 32`, an
empty input yields a 64-byte file, and decrypting that file yields empty
output with authentication OK. -/
theorem cbc_encrypt_always_pads (key iv msg : List Nat) (hiv : iv.length = 16)
    (hivb : ∀ x ∈ iv, x < 256) :
    (msg.length % 16 = 0 → pkcs7_pad msg = msg ++ List.replicate 16 16) ∧
    (cbc_encrypt_stream key iv msg).length = 16 + 16 * (msg.length / 16 + 1) + 32 ∧
    (cbc_encrypt_stream key iv []).length = 64 ∧
    cbc_decrypt_stream key (cbc_encrypt_stream key iv []) = .ok ([], true) := by
  refine ⟨?_, cbc_encrypt_stream_length key iv msg hiv, ?_, ?_⟩
  · intro h0
    rw [pkcs7_pad, h0]
  · rw [cbc_encrypt_stream_length key iv [] hiv]
    decide
  · exact cbc_roundtrip_aux key iv [] hiv hivb (by simp)

/-- Witness for C7 at a concrete key, IV and message. -/
theorem cbc_encrypt_always_pads_witness :
    ((List.replicate 32 7 : List Nat).length % 16 = 0 →
      pkcs7_pad (List.replicate 32 7) = List.replicate 32 7 ++ List.replicate 16 16) ∧
    (cbc_encrypt_stream [] (List.replicate 16 0) (List.replicate 32 7)).length =
      16 + 16 * ((List.replicate 32 7 : List Nat).length / 16 + 1) + 32 ∧
    (cbc_encrypt_stream [] (List.replicate 16 0) []).length = 64 ∧
    cbc_decrypt_stream [] (cbc_encrypt_stream [] (List.replicate 16 0) []) =
      .ok ([], true) :=
  cbc_encrypt_always_pads [] (List.replicate 16 0) (List.replicate 32 7)
    (by decide) (by decide)

/-- Claim C9: when both size checks pass, the final block unpads successfully,
and the recomputed SHA-256 differs from the stored hash, CBC decryption still
returns the full unpadded plaintext with the auth flag false; the driver keeps
the output file, reports the failure, and exits 0 (not treated as fatal). -/
theorem cbc_auth_failure_nonfatal (key file lastB stripped : List Nat)
    (h48 : 48 ≤ file.length) (hne : file.length - 48 ≠ 0)
    (hmod : (file.length - 48) % 16 = 0)
    (hlast : (cbc_decrypt_blocks key (file.take 16)
      (toBlocks16 ((file.drop 16).take (file.length - 48)))).getLast? = some lastB)
    (hunp : pkcs7_unpad lastB = some stripped)
    (hmismatch : sha256 ((file.drop 16).take (file.length - 48)) ≠
      file.drop (file.length - 32)) :
    cbc_decrypt_stream key file =
      .ok ((cbc_decrypt_blocks key (file.take 16)
        (toBlocks16 ((file.drop 16).take (file.length - 48)))).dropLast.flatten ++
        stripped, false) ∧
    cbcDriver (cbc_decrypt_stream key file) = ⟨false, some false, 0⟩ := by
  have hstream : cbc_decrypt_stream key file = cbc_decrypt_body key file := by
    rw [cbc_decrypt_stream, if_neg (by omega),
      if_neg (by push_neg; exact ⟨hne, hmod⟩)]
  have hflag : (sha256 ((file.drop 16).take (file.length - 48)) ==
      file.drop (file.length - 32)) = false := beq_eq_false_iff_ne.mpr hmismatch
  have hbody : cbc_decrypt_body key file =
      .ok ((cbc_decrypt_blocks key (file.take 16)
        (toBlocks16 ((file.drop 16).take (file.length - 48)))).dropLast.flatten ++
        stripped, false) := by
    rw [cbc_decrypt_body, hlast, cbc_finalize, hunp, cbc_emit, hflag]
  rw [hstream, hbody]
  exact ⟨rfl, rfl⟩

set_option maxRecDepth 4000 in
/-- Witness for C9: a concrete 64-byte file whose single ciphertext block
decrypts to a validly padded block while the stored hash (all zeros) differs
from the recomputed SHA-256. -/
theorem cbc_auth_failure_nonfatal_witness :
    cbc_decrypt_stream [] (List.replicate 16 0 ++
      (encryptBlockBytes [] (List.replicate 16 16) ++ List.replicate 32 0)) =
      .ok ((cbc_decrypt_blocks []
        ((List.replicate 16 0 ++ (encryptBlockBytes [] (List.replicate 16 16) ++
          List.replicate 32 0)).take 16)
        (toBlocks16 (((List.replicate 16 0 ++ (encryptBlockBytes []
          (List.replicate 16 16) ++ List.replicate 32 0)).drop 16).take
          ((List.replicate 16 0 ++ (encryptBlockBytes [] (List.replicate 16 16) ++
            List.replicate 32 0)).length - 48)))).dropLast.flatten ++ [], false) ∧
    cbcDriver (cbc_decrypt_stream [] (List.replicate 16 0 ++
      (encryptBlockBytes [] (List.replicate 16 16) ++ List.replicate 32 0))) =
      ⟨false, some false, 0⟩ :=
  cbc_auth_failure_nonfatal [] _ (List.replicate 16 16) [] (by decide) (by decide)
    (by decide) (by decide) (by decide) (by decide)

/- ===================== theorems: GCM round trip ===================== -/

theorem gcm_ctr_enc_length_aux (key : List Nat) (hbe : Be128) :
    ∀ (n : Nat) (m ctr : List Nat) (s : Be128), m.length ≤ n →
      (gcm_ctr_enc key hbe ctr s m).1.length = m.length := by
  intro n
  induction n with
  | zero =>
    intro m ctr s h
    have hm : m = [] := List.eq_nil_of_length_eq_zero (by omega)
    subst hm
    rw [gcm_ctr_enc]
    simp
  | succ k ih =>
    intro m ctr s h
    by_cases hm : m = []
    · subst hm; rw [gcm_ctr_enc]; simp
    · have hlen : 1 ≤ m.length := by
        cases m with
        | nil => exact absurd rfl hm
        | cons a t => simp
      rw [gcm_ctr_enc, dif_neg hm]
      simp only [List.length_append]
      rw [ih (m.drop (min 16 m.length)) _ _ (by simp; omega), xorBytes_length]
      simp only [List.length_take, List.length_drop, encryptBlockBytes_length]
      omega

/-- The ciphertext stream has the length of the plaintext stream. -/
theorem gcm_ctr_enc_length (key : List Nat) (hbe : Be128) (m ctr : List Nat)
    (s : Be128) : (gcm_ctr_enc key hbe ctr s m).1.length = m.length :=
  gcm_ctr_enc_length_aux key hbe m.length m ctr s (Nat.le_refl _)

theorem gcm_ctr_dec_enc_aux (key : List Nat) (hbe : Be128) :
    ∀ (n : Nat) (m ctr : List Nat) (s : Be128), m.length ≤ n →
      gcm_ctr_dec key hbe ctr s (gcm_ctr_enc key hbe ctr s m).1 =
        (m, (gcm_ctr_enc key hbe ctr s m).2) := by
  intro n
  induction n with
  | zero =>
    intro m ctr s h
    have hm : m = [] := List.eq_nil_of_length_eq_zero (by omega)
    subst hm
    rw [gcm_ctr_enc, gcm_ctr_dec]
    simp
  | succ k ih =>
    intro m ctr s h
    by_cases hm : m = []
    · subst hm; rw [gcm_ctr_enc, gcm_ctr_dec]; simp
    · have hlen : 1 ≤ m.length := by
        cases m with
        | nil => exact absurd rfl hm
        | cons a t => simp
      have hmin : min 16 m.length ≤ 16 := Nat.min_le_left _ _
      have hminpos : 1 ≤ min 16 m.length := by omega
      -- the encrypted chunk
      have hclen : (xorBytes (m.take (min 16 m.length))
          (List.take (min 16 m.length) (encryptBlockBytes key ctr))).length =
          min 16 m.length := by
        rw [xorBytes_length]
        simp only [List.length_take, List.length_drop, encryptBlockBytes_length]
        omega
      have hrestlen : (gcm_ctr_enc key hbe (inc32 ctr)
          (ghash_update s hbe (xorBytes (m.take (min 16 m.length))
            (List.take (min 16 m.length) (encryptBlockBytes key ctr)) ++
            List.replicate (16 - min 16 m.length) 0))
          (m.drop (min 16 m.length))).1.length = m.length - min 16 m.length := by
        rw [gcm_ctr_enc_length]
        simp
      rw [gcm_ctr_enc, dif_neg hm]
      have hne2 : xorBytes (m.take (min 16 m.length))
          (List.take (min 16 m.length) (encryptBlockBytes key ctr)) ++
          (gcm_ctr_enc key hbe (inc32 ctr)
            (ghash_update s hbe (xorBytes (m.take (min 16 m.length))
              (List.take (min 16 m.length) (encryptBlockBytes key ctr)) ++
              List.replicate (16 - min 16 m.length) 0))
            (m.drop (min 16 m.length))).1 ≠ [] := by
        intro hc
        have := congrArg List.length hc
        simp only [List.length_append, hclen, hrestlen, List.length_nil] at this
        omega
      rw [gcm_ctr_dec, dif_neg hne2]
      have hlentot : (xorBytes (m.take (min 16 m.length))
          (List.take (min 16 m.length) (encryptBlockBytes key ctr)) ++
          (gcm_ctr_enc key hbe (inc32 ctr)
            (ghash_update s hbe (xorBytes (m.take (min 16 m.length))
              (List.take (min 16 m.length) (encryptBlockBytes key ctr)) ++
              List.replicate (16 - min 16 m.length) 0))
            (m.drop (min 16 m.length))).1).length = m.length := by
        simp only [List.length_append, hclen, hrestlen]
        omega
      rw [hlentot, List.take_left' hclen, List.drop_left' hclen,
        xorBytes_xorBytes _ _ (by
          simp only [List.length_take, encryptBlockBytes_length]
          omega),
        ih (m.drop (min 16 m.length)) _ _ (by simp; omega)]
      rw [List.take_append_drop]

/-- On any file that passes the size checks, `decrypt_file` returns the
streamed plaintext and the constant-time tag comparison. -/
theorem decrypt_file_eq (key file : List Nat) (h32 : 32 ≤ file.length) :
    decrypt_file key file = some (gcm_plaintext key file,
      ct_memcmp (file.drop (file.length - 16)) (gcm_recomputed_tag key file) == 0) := by
  rw [decrypt_file, if_neg (by omega), if_neg (by omega)]
  rfl

/-- Parsing the three regions of an `IV ‖ C ‖ TAG` file. -/
theorem gcm_parse_shape (iv ct tag : List Nat) (hiv : iv.length = 16)
    (htag : tag.length = 16) :
    ((iv ++ ct) ++ tag).drop (((iv ++ ct) ++ tag).length - 16) = tag ∧
    ((iv ++ ct) ++ tag).take 16 = iv ∧
    (((iv ++ ct) ++ tag).drop 16).take (((iv ++ ct) ++ tag).length - 16 - 16) = ct := by
  refine ⟨?_, ?_, ?_⟩
  · rw [show ((iv ++ ct) ++ tag).length - 16 = (iv ++ ct).length from by
      simp only [List.length_append, hiv, htag]
      omega]
    exact List.drop_left _ _
  · rw [List.append_assoc]
    exact List.take_left' hiv
  · rw [List.append_assoc, List.drop_left' hiv]
    rw [show (iv ++ (ct ++ tag)).length - 16 - 16 = ct.length from by
      simp only [List.length_append, hiv, htag]
      omega]
    exact List.take_left _ _

theorem ct_memcmp_self (a : List Nat) : ct_memcmp a a = 0 :=
  (ct_memcmp_eq_zero_iff a a rfl).mpr rfl

/-- General GCM round trip, for an arbitrary subkey list. -/
theorem gcm_roundtrip_aux (key iv msg : List Nat) (hiv : iv.length = 16) :
    decrypt_file key (encrypt_file key iv msg) = some (msg, true) := by
  set HBE := load_be128 (encryptBlockBytes key (List.replicate 16 0)) with hHBE
  set J0 := derive_j0 iv HBE with hJ0
  set CT := (gcm_ctr_enc key HBE (inc32 J0) ⟨0, 0⟩ msg).1 with hCT
  set TAG := xorBytes (encryptBlockBytes key J0)
    (store_be128 (ghash_update (gcm_ctr_enc key HBE (inc32 J0) ⟨0, 0⟩ msg).2 HBE
      (List.replicate 8 0 ++ wordBytes ((msg.length * 8) % 2 ^ 64)))) with hTAG
  have hctlen : CT.length = msg.length := by
    rw [hCT]
    exact gcm_ctr_enc_length key HBE msg (inc32 J0) ⟨0, 0⟩
  have htaglen : TAG.length = 16 := by
    rw [hTAG, xorBytes_length, encryptBlockBytes_length, store_be128_length]
    omega
  have hfile : encrypt_file key iv msg = (iv ++ CT) ++ TAG := rfl
  have hflen : ((iv ++ CT) ++ TAG).length = 16 + msg.length + 16 := by
    simp only [List.length_append, hiv, hctlen, htaglen]
  obtain ⟨hdroptag, htake16, hctparse⟩ := gcm_parse_shape iv CT TAG hiv htaglen
  have hdec : gcm_ctr_dec key HBE (inc32 J0) ⟨0, 0⟩ CT =
      (msg, (gcm_ctr_enc key HBE (inc32 J0) ⟨0, 0⟩ msg).2) := by
    rw [hCT]
    exact gcm_ctr_dec_enc_aux key HBE msg.length msg (inc32 J0) ⟨0, 0⟩ (Nat.le_refl _)
  rw [hfile, decrypt_file_eq key _ (by rw [hflen]; omega)]
  rw [gcm_plaintext, gcm_recomputed_tag, ← hHBE, htake16, ← hJ0, hctparse,
    hdroptag, hflen]
  rw [show 16 + msg.length + 16 - 16 - 16 = msg.length from by omega]
  rw [hdec, ← hTAG, ct_memcmp_self]
  rfl

/-- Claim C2: for every byte string and password, GCM decryption of the GCM
encryption (under the password-derived subkeys, with the IV recorded in the
file) yields exactly the plaintext and reports authentication OK. -/
theorem gcm_round_trip_password (pw iv msg : List Nat) (hiv : iv.length = 16)
    (hmb : ∀ x ∈ msg, x < 256) :
    decrypt_file (derive_key_from_password pw)
      (encrypt_file (derive_key_from_password pw) iv msg) = some (msg, true) :=
  gcm_roundtrip_aux _ iv msg hiv

/-- Witness for C2 at a concrete password, IV and message. -/
theorem gcm_round_trip_password_witness :
    decrypt_file (derive_key_from_password [112, 119])
      (encrypt_file (derive_key_from_password [112, 119])
        (List.replicate 16 0) [1, 2, 3]) = some ([1, 2, 3], true) :=
  gcm_round_trip_password [112, 119] (List.replicate 16 0) [1, 2, 3]
    (by decide) (by decide)
